import Mathlib

/-!
Verification of the address normalization and hierarchical resolution engine
in `api/utils/address.py`.

Strings are modelled as `List Char` (`Str`).  Python regular-expression
substitutions are modelled by explicit left-to-right, leftmost, non-overlapping
scanners (`reSubM`), exactly mirroring `re.sub` for the concrete fixed patterns
used by the source.  `re.finditer`-based `last_index_of_regex` is modelled by
`last_index_of_regex` below (last start index of the non-overlapping
left-to-right scan).  `str.rfind` is modelled by `rfindI`.
`unicodedata.normalize("NFD", ...)` inside `remove_accent` is modelled as the
identity (inputs are treated as already decomposed); the combining-mark
removal and the explicit replacement table follow the source verbatim.
Case mapping (`str.capitalize`, `re.IGNORECASE`) is modelled on ASCII via
`Char.toUpper` / `Char.toLower`.
-/

set_option maxRecDepth 100000

set_option maxHeartbeats 1000000

namespace AddressPy

abbrev Str := List Char

/-- Whitespace characters of Python's `\s` (ASCII range). -/
def isWsChar (c : Char) : Bool :=
  c = ' ' || c = '\t' || c = '\n' || c = '\r' || c = '\x0b' || c = '\x0c'

/-- Word characters of Python's `\w` / `\b` (ASCII range). -/
def isWordChar (c : Char) : Bool :=
  c.isAlphanum || c = '_'

def wordOpt : Option Char → Bool
  | none => false
  | some c => isWordChar c

/-- A `\b` word boundary sits between two (optional) characters iff exactly one
side is a word character; `none` stands for the edge of the string. -/
def boundaryAt (l r : Option Char) : Bool :=
  wordOpt l != wordOpt r

/-- Python `str.capitalize()`: first character uppercased, the rest lowercased. -/
def pyCapitalize : Str → Str
  | [] => []
  | c :: cs => c.toUpper :: cs.map Char.toLower

/-- Python `str.split()` (split on whitespace runs, no empty tokens); fuelled. -/
def splitWsAux : Nat → Str → List Str
  | 0, _ => []
  | fuel+1, s =>
    let s1 := s.dropWhile isWsChar
    if s1 = [] then []
    else s1.takeWhile (fun c => !isWsChar c) :: splitWsAux fuel (s1.dropWhile (fun c => !isWsChar c))

def pySplitWs (s : Str) : List Str := splitWsAux s.length s

def joinSpace : List Str → Str
  | [] => []
  | [t] => t
  | t :: ts => t ++ ' ' :: joinSpace ts

/-- `init_cap_words` from the source: capitalize each whitespace token. -/
def init_cap_words (s : Str) : Str :=
  if s = [] then s else joinSpace ((pySplitWs s).map pyCapitalize)

/-- Python `str.strip()`. -/
def pyStrip (s : Str) : Str :=
  ((s.dropWhile isWsChar).reverse.dropWhile isWsChar).reverse

/-- `re.sub(r"\s+", " ", s)`: each maximal whitespace run becomes one space. -/
def collapseWsAux : Nat → Str → Str
  | 0, s => s
  | _+1, [] => []
  | fuel+1, c :: rest =>
    if isWsChar c then ' ' :: collapseWsAux fuel (rest.dropWhile isWsChar)
    else c :: collapseWsAux fuel rest

def collapseWs (s : Str) : Str := collapseWsAux s.length s

/-- `remove_spare_space` from the source: `re.sub(r"\s+", " ", text.strip())`. -/
def remove_spare_space (s : Str) : Str := collapseWs (pyStrip s)

/-- Combining diacritical marks U+0300 to U+036F. -/
def combiningMark (c : Char) : Bool :=
  decide (0x300 ≤ c.toNat ∧ c.toNat ≤ 0x36F)

/-- Python `str.replace(b, a)` for single characters. -/
def replaceChar (b a : Char) (s : Str) : Str :=
  s.map (fun c => if c = b then a else c)

/-- The replacement table of `remove_accent`, in source order. -/
def accentRows : List (Char × Str) :=
  [ ('a', ("àáạảãâầấậẩẫăằắặẳẵ".toList)),
    ('A', ("ÀÁẠẢÃĂẰẮẶẲẴÂẦẤẬẨẪ".toList)),
    ('e', ("èéẹẻẽêềếệểễ".toList)),
    ('E', ("ÈÉẸẺẼÊỀẾỆỂỄ".toList)),
    ('o', ("òóọỏõôồốộổỗơờớợởỡ".toList)),
    ('O', ("ÒÓỌỎÕÔỒỐỘỔỖƠỜỚỢỞỠ".toList)),
    ('i', ("ìíịỉĩ".toList)),
    ('I', ("ÌÍỊỈĨ".toList)),
    ('u', ("ùúụủũưừứựửữ".toList)),
    ('U', ("ƯỪỨỰỬỮÙÚỤỦŨ".toList)),
    ('y', ("ỳýỵỷỹ".toList)),
    ('Y', ("ỲÝỴỶỸ".toList)),
    ('d', ("đ".toList)),
    ('D', ("Đ".toList)) ]

/-- `remove_accent` from the source (NFD modelled as the identity): strip the
combining marks, then run the replacement table. -/
def remove_accent (s : Str) : Str :=
  accentRows.foldl
    (fun t row => row.2.foldl (fun u b => replaceChar b row.1 u) t)
    (s.filter (fun c => !combiningMark c))

/-- All source characters of the `remove_accent` replacement table. -/
def accentSrc : List Char := accentRows.flatMap (fun row => row.2)

/-- A character that `remove_accent` leaves alone: not a combining mark and
not a source character of the replacement table. -/
def safeChar (c : Char) : Bool := !combiningMark c && !accentSrc.contains c

/-- A string on which `remove_accent` acts as the identity, characterwise. -/
def SafeStr (t : Str) : Prop := ∀ c ∈ t, safeChar c = true

/-- Case-insensitive literal prefix test (`re.IGNORECASE` on ASCII). -/
def ciPrefixAt (pat s : Str) : Bool :=
  (s.take pat.length).map Char.toLower == pat.map Char.toLower

/-- One alternative of an alternation pattern: a literal, with optional `\b`
requirements on its left and right. -/
structure AltPat where
  lit : Str
  bl : Bool
  br : Bool
deriving DecidableEq

def altMatchAt (alt : AltPat) (prev : Option Char) (s : Str) : Bool :=
  !(alt.lit = []) && ciPrefixAt alt.lit s &&
  (!alt.bl || boundaryAt prev s.head?) &&
  (!alt.br || boundaryAt (s.take alt.lit.length).getLast? (s.drop alt.lit.length).head?)

/-- A matcher: given the previous original character and the current suffix,
report a match as (consumed length, replacement). -/
abbrev Matcher := Option Char → Str → Option (Nat × Str)

def altsToM (alts : List AltPat) (repl : Str) : Matcher :=
  fun prev s =>
    match alts.find? (fun a => altMatchAt a prev s) with
    | some a => some (a.lit.length, repl)
    | none => none

/-- `re.sub` for a matcher with positive consumed lengths: leftmost scan,
non-overlapping, continuing after each match.  `prev` is the previous character
of the original string (for `\b` at the pattern start). -/
def reSubM (m : Matcher) : Nat → Option Char → Str → Str
  | 0, _, s => s
  | _+1, _, [] => []
  | fuel+1, prev, c :: rest =>
    match m prev (c :: rest) with
    | some (len, repl) =>
        repl ++ reSubM m fuel (((c :: rest).take len).getLast?) ((c :: rest).drop len)
    | none => c :: reSubM m fuel (some c) rest

def pySub (m : Matcher) (s : Str) : Str := reSubM m s.length none s

def plainAlts (ls : List Str) : List AltPat :=
  ls.map (fun l => ⟨l, false, false⟩)

/-- `DICT_NORM_ABBREV` from the source, in insertion order. -/
def DICT_NORM_ABBREV : List (Str × List Str) :=
  [ (("Tp ".toList), [("Tp.".toList), ("Tp:".toList)]),
    (("Tt ".toList), [("Tt.".toList), ("Tt:".toList)]),
    (("Q ".toList), [("Q.".toList), ("Q:".toList)]),
    (("H ".toList), [("H.".toList), ("H:".toList)]),
    (("X ".toList), [("X.".toList), ("X:".toList)]),
    (("P ".toList), [("P.".toList), ("P:".toList)]) ]

/-- `clean_abbrev_address` from the source: per key, substitute the
case-insensitive alternation of the variants by `key.capitalize()`; then
`re.sub(r"\s+", " ", text).strip()`. -/
def clean_abbrev_address (s : Str) (dict : List (Str × List Str)) : Str :=
  pyStrip (collapseWs
    (dict.foldl (fun t kv => pySub (altsToM (plainAlts kv.2) (pyCapitalize kv.1)) t) s))

def takeDigits (s : Str) : Str := s.takeWhile Char.isDigit

/-- Matcher for `\b(h1|h2|...)\s*(\d+)\b` replaced by `outHead ++ digits`
(used by the district rule `\b(q|quan)\s*(\d+)\b → Q\2`, the ward rule
`\b(p|phuong)\s*(\d+)\b → P\2`, and — with `allowWs := false` and head `f` —
the rule `\b[Ff](\d+)\b → P\1`).  Alternatives are tried in order; for these
heads at most one alternative can complete a match, as in the source regex. -/
def qdCore (outHead : Char) (hl wsl : Nat) (r2 : Str) : Option (Nat × Str) :=
  if takeDigits r2 = [] then none
  else if boundaryAt (takeDigits r2).getLast? (r2.drop (takeDigits r2).length).head? then
    some (hl + wsl + (takeDigits r2).length, outHead :: takeDigits r2)
  else none

def qdWs (allowWs : Bool) (r1 : Str) : Str :=
  if allowWs then r1.takeWhile isWsChar else []

def qdTry (outHead : Char) (allowWs : Bool) (s : Str) (h : Str) : Option (Nat × Str) :=
  if ciPrefixAt h s then
    qdCore outHead h.length (qdWs allowWs (s.drop h.length)).length
      ((s.drop h.length).drop (qdWs allowWs (s.drop h.length)).length)
  else none

def qdMatch (heads : List Str) (outHead : Char) (allowWs : Bool) : Matcher :=
  fun prev s =>
    if boundaryAt prev s.head? then heads.findSome? (qdTry outHead allowWs s)
    else none

/-- Matcher for `\bL0+(\d+)\b → L\1` (leading-zero stripping, case-sensitive
letter `L`): the digit run after `L` must start with `0`, have length at least
two, and end at a word boundary; `0+` is maximal subject to leaving at least
one digit for the group. -/
def stripZerosCut (run : Str) : Nat :=
  if (run.takeWhile (fun d => d = '0')).length = run.length then run.length - 1
  else (run.takeWhile (fun d => d = '0')).length

def stripZerosCore (letter : Char) (run rest : Str) : Option (Nat × Str) :=
  if 2 ≤ run.length ∧ run.head? = some '0' ∧
      boundaryAt run.getLast? (rest.drop run.length).head? = true then
    some (1 + run.length, letter :: run.drop (stripZerosCut run))
  else none

def stripZerosMatch (letter : Char) : Matcher :=
  fun prev s =>
    if boundaryAt prev s.head? then
      match s with
      | c :: rest =>
        if c = letter then stripZerosCore letter (takeDigits rest) rest
        else none
      | [] => none
    else none

/-- `clean_digit_district` from the source. -/
def clean_digit_district (s : Str) : Str :=
  let t := pySub (qdMatch [("q".toList), ("quan".toList)] 'Q' true) s
  pySub (stripZerosMatch 'Q') t

/-- `clean_digit_ward` from the source. -/
def clean_digit_ward (s : Str) : Str :=
  let t := pySub (qdMatch [("p".toList), ("phuong".toList)] 'P' true) s
  let t2 := pySub (qdMatch [("f".toList)] 'P' false) t
  pySub (stripZerosMatch 'P') t2

/-- The alternation built by `clean_dash_address`'s
`r"\b|\b".join(map(re.escape, synonyms))`: the separator sits between the
alternatives, so the first one has only a trailing `\b`, middle ones have both,
and the last one has only a leading `\b`; a single synonym has none. -/
def dashAlts (syns : List Str) : List AltPat :=
  syns.enum.map (fun p => ⟨p.2, decide (p.1 ≠ 0), decide (p.1 + 1 ≠ syns.length)⟩)

/-- `DICT_NORM_CITY_DASH` from the source, in insertion order. -/
def DICT_NORM_CITY_DASH : List (Str × List Str) :=
  [ ((" Ba Ria - Vung Tau ".toList),
      [("Ba Ria Vung Tau".toList), ("Ba Ria-Vung Tau".toList), ("Brvt".toList), ("Br - Vt".toList)]),
    ((" Phan Rang - Thap Cham ".toList),
      [("Phan Rang Thap Cham".toList)]),
    ((" Thua Thien Hue ".toList), [("Thua Thien - Hue".toList)]),
    ((" Ho Chi Minh ".toList),
      [("Sai Gon".toList), ("Tphcm".toList), ("Hcm".toList), ("Sg".toList)]),
    ((" Da Nang ".toList),
      [("Quang Nam-Da Nang".toList), ("Quang Nam - Da Nang".toList)]) ]

/-- `clean_dash_address` from the source: per key, substitute the
case-insensitive alternation of the synonyms by the key itself. -/
def clean_dash_address (s : Str) (dict : List (Str × List Str)) : Str :=
  dict.foldl (fun t kv => pySub (altsToM (dashAlts kv.2) kv.1) t) s

/-- `ADDRESS_PUNCTUATIONS` from the source. -/
def ADDRESS_PUNCTUATIONS : List Char :=
  ['.', ',', '!', '?', ';', ':', '-', '_', '(', ')', '"', '\'']

/-- `remove_punctuation` from the source. -/
def remove_punctuation (s : Str) (puncts : List Char) : Str :=
  if puncts = [] then remove_spare_space s
  else remove_spare_space (s.filter (fun c => !puncts.contains c))

/-- Matcher for `\s*,\s*` replaced by `", "`. -/
def commaMatch : Matcher :=
  fun _ s =>
    let ws1 := s.takeWhile isWsChar
    match s.drop ws1.length with
    | c :: rest =>
      if c = ',' then
        let ws2 := rest.takeWhile isWsChar
        some (ws1.length + 1 + ws2.length, (", ".toList))
      else none
    | [] => none

/-- Matcher for `[._-]` replaced by a space. -/
def dotDashMatch : Matcher :=
  fun _ s =>
    match s with
    | c :: _ => if c = '.' ∨ c = '_' ∨ c = '-' then some (1, [' ']) else none
    | [] => none

/-- `add_space_separator` from the source. -/
def add_space_separator (s : Str) : Str :=
  let t1 := pySub commaMatch s
  let t2 := pySub dotDashMatch t1
  let t3 := pyStrip (collapseWs t2)
  init_cap_words t3

/-- `clean_full_address` from the source: the fixed, order-dependent
normalization pipeline. -/
def clean_full_address (s : Str) : Str :=
  let t1 := init_cap_words s
  let t2 := remove_accent t1
  let t3 := clean_abbrev_address t2 DICT_NORM_ABBREV
  let t4 := remove_spare_space t3
  let t5 := clean_digit_district t4
  let t6 := clean_digit_ward t5
  let t7 := clean_dash_address t6 DICT_NORM_CITY_DASH
  let t8 := remove_punctuation t7 ADDRESS_PUNCTUATIONS
  let t9 := add_space_separator t8
  clean_digit_ward (clean_digit_district t9)

/-! ### The hierarchical resolver (`parse_address`) -/

/-- `w` occurs in `s` starting at index `i` (plain substring occurrence). -/
def substrAtB (w s : Str) (i : Nat) : Bool :=
  ((s.drop i).take w.length == w) && decide (i + w.length ≤ s.length)

/-- Greatest `i ≤ bound` satisfying `p`, scanning downward. -/
def findMaxAux (p : Nat → Bool) : Nat → Option Nat
  | 0 => if p 0 then some 0 else none
  | i+1 => if p (i+1) then some (i+1) else findMaxAux p i

/-- Python `str.rfind`: the greatest starting index of an occurrence. -/
def rfindOpt (s w : Str) : Option Nat :=
  findMaxAux (fun i => substrAtB w s i) s.length

def rfindI (s w : Str) : Int :=
  match rfindOpt s w with
  | some i => Int.ofNat i
  | none => -1

/-- A match of the compiled pattern `word` (`anchored = false`) or
`word` followed by one character of the terminator class
(`anchored = true`) at index `i`. -/
def parseMatchAt (s w : Str) (anchored : Bool) (ending : Char → Bool) (i : Nat) : Bool :=
  substrAtB w s i &&
  (!anchored || (match (s.drop (i + w.length)).head? with
                 | some c => ending c
                 | none => false))

def firstMatchFrom (s w : Str) (anchored : Bool) (ending : Char → Bool) (pos : Nat) : Option Nat :=
  (List.range (s.length + 1)).find? (fun i => decide (pos ≤ i) && parseMatchAt s w anchored ending i)

def fiLastAux (s w : Str) (anchored : Bool) (ending : Char → Bool) :
    Nat → Nat → Int → Int
  | 0, _, acc => acc
  | fuel+1, pos, acc =>
    match firstMatchFrom s w anchored ending pos with
    | none => acc
    | some i =>
        fiLastAux s w anchored ending fuel
          (i + max (w.length + (if anchored then 1 else 0)) 1) (Int.ofNat i)

/-- `last_index_of_regex` from the source: the start of the last match of
`list(re.finditer(pattern, text))`, or `-1`; for the patterns the resolver
compiles (a literal word, optionally followed by one terminator-class
character).  The empty unanchored pattern matches (zero-width) at every
position, so the last start is `len(text)`. -/
def last_index_of_regex (s w : Str) (anchored : Bool) (ending : Char → Bool) : Int :=
  if w = [] ∧ anchored = false then Int.ofNat s.length
  else fiLastAux s w anchored ending (s.length + 1) 0 (-1)

/-- `replace_last_occurrences` from the source. -/
def replace_last_occurrences (target substr repl : Str) : Str :=
  if substr = [] then target
  else
    match rfindOpt target substr with
    | none => target
    | some li => target.take li ++ repl ++ target.drop (li + substr.length)

/-- Python `str.replace(pat, repl)` (all non-overlapping occurrences,
left to right); used for the dangling `"Thanh Pho ,"` fragment. -/
def replaceAllAux (pat repl : Str) : Nat → Str → Str
  | 0, s => s
  | _+1, [] => []
  | fuel+1, c :: rest =>
    if (c :: rest).take pat.length = pat then
      repl ++ replaceAllAux pat repl fuel ((c :: rest).drop pat.length)
    else c :: replaceAllAux pat repl fuel rest

def pyReplaceAll (s pat repl : Str) : Str :=
  if pat = [] then s else replaceAllAux pat repl s.length s

/-- Python `str.endswith`. -/
def endsWithB (s pat : Str) : Bool :=
  decide (pat.length ≤ s.length) && (s.drop (s.length - pat.length) == pat)

/-- The scan state of each extraction loop:
`(founded_*, choose_word, largest_index)`. -/
structure ScanSt where
  found : String
  choose : Str
  largest : Int
deriving DecidableEq

def initSt : ScanSt := ⟨"", [], -1⟩

/-- One candidate word processed by an extraction loop: keep the candidate if
its last index is strictly greater, or equal (and existing, `> -1`) with a
strictly longer word. -/
def scanStep (idx : Str → Int) (u : String) (st : ScanSt) (w : Str) : ScanSt :=
  if idx w > st.largest ∨ (idx w = st.largest ∧ st.largest > -1 ∧ w.length > st.choose.length)
  then ⟨u, w, idx w⟩ else st

def scanWords (idx : Str → Int) (u : String) (st : ScanSt) (ws : List Str) : ScanSt :=
  ws.foldl (scanStep idx u) st

/-- The nested loop over candidate units and their alias words. -/
def scanUnits (idx : Str → Int) (units : List (String × List Str)) (st : ScanSt) : ScanSt :=
  units.foldl (fun st p => scanWords idx p.1 st p.2) st

structure ProvinceData where
  id : Nat
  name : Str
  words : List Str
  district : List String
deriving DecidableEq

structure DistrictData where
  name : Str
  words : List Str
  province : Nat
  ward : List String
deriving DecidableEq

structure WardData where
  name : Str
  words : List Str
deriving DecidableEq

def emptyProvince : ProvinceData := ⟨0, [], [], []⟩

def emptyDistrict : DistrictData := ⟨[], [], 0, []⟩

def emptyWard : WardData := ⟨[], []⟩

/-- Association-list model of a Python `dict` (iteration in insertion order). -/
def lookup {α : Type} (xs : List (String × α)) (k : String) : Option α :=
  (xs.find? (fun p => p.1 == k)).map (fun p => p.2)

abbrev ProvDB := List (String × ProvinceData)

abbrev DistDB := List (String × DistrictData)

abbrev WardDB := List (String × WardData)

/-- The address being parsed, after normalization and the sentinel comma. -/
def address0 (input : Str) : Str := clean_full_address input ++ [',']

/-- Stage 1: scan all provinces with `str.rfind`. -/
def provinceScan (dbp : ProvDB) (a : Str) : ScanSt :=
  scanUnits (fun w => rfindI a w) (dbp.map (fun p => (p.1, p.2.words))) initSt

def provSt (dbp : ProvDB) (input : Str) : ScanSt :=
  provinceScan dbp (address0 input)

/-- The address after removing the last occurrence of the winning province
alias (if any). -/
def address1 (dbp : ProvDB) (input : Str) : Str :=
  if (provSt dbp input).found ≠ "" then
    replace_last_occurrences (address0 input) (provSt dbp input).choose []
  else address0 input

def thanhPhoFrag : Str := ("Thanh Pho ,".toList)

/-- The address after stripping a dangling trailing `"Thanh Pho ,"`. -/
def address2 (dbp : ProvDB) (input : Str) : Str :=
  if endsWithB (address1 dbp input) thanhPhoFrag then
    pyReplaceAll (address1 dbp input) thanhPhoFrag []
  else address1 dbp input

/-- Stage 2, province resolved: scan only the districts of that province,
with the terminator-anchored pattern. -/
def districtCandidates (dbp : ProvDB) (dbd : DistDB) (fp : String) :
    List (String × List Str) :=
  (((lookup dbp fp).getD emptyProvince).district).map
    (fun dk => (dk, ((lookup dbd dk).getD emptyDistrict).words))

def districtScanWithProv (dbp : ProvDB) (dbd : DistDB) (ending : Char → Bool)
    (a : Str) (fp : String) : ScanSt :=
  scanUnits (fun w => last_index_of_regex a w true ending) (districtCandidates dbp dbd fp) initSt

/-- Stage 2, no province: scan all districts with the plain (unanchored)
pattern. -/
def districtScanNoProv (dbd : DistDB) (a : Str) : ScanSt :=
  scanUnits (fun w => last_index_of_regex a w false (fun _ => false))
    (dbd.map (fun p => (p.1, p.2.words))) initSt

def distSt (dbp : ProvDB) (dbd : DistDB) (ending : Char → Bool) (input : Str) : ScanSt :=
  if (provSt dbp input).found ≠ "" then
    districtScanWithProv dbp dbd ending (address2 dbp input) (provSt dbp input).found
  else districtScanNoProv dbd (address2 dbp input)

/-- The address after removing the last occurrence of the winning district
alias (if any). -/
def address3 (dbp : ProvDB) (dbd : DistDB) (ending : Char → Bool) (input : Str) : Str :=
  if (distSt dbp dbd ending input).found ≠ "" then
    replace_last_occurrences (address2 dbp input) (distSt dbp dbd ending input).choose []
  else address2 dbp input

/-- The final province key: inferred from the district's `province` id (the
first province whose `id` field equals it) when stage 1 found nothing. -/
def provKeyFinal (dbp : ProvDB) (dbd : DistDB) (ending : Char → Bool) (input : Str) : String :=
  if (provSt dbp input).found = "" ∧ (distSt dbp dbd ending input).found ≠ "" then
    ((dbp.find? (fun kv =>
        kv.2.id == ((lookup dbd (distSt dbp dbd ending input).found).getD emptyDistrict).province)).map
      (fun kv => kv.1)).getD ""
  else (provSt dbp input).found

/-- Stage 3: scan the wards of the resolved district, terminator-anchored. -/
def wardCandidates (dbd : DistDB) (dbw : WardDB) (fd : String) :
    List (String × List Str) :=
  (((lookup dbd fd).getD emptyDistrict).ward).map
    (fun wk => (wk, ((lookup dbw wk).getD emptyWard).words))

def wardScanOf (dbd : DistDB) (dbw : WardDB) (ending : Char → Bool)
    (a : Str) (fd : String) : ScanSt :=
  scanUnits (fun w => last_index_of_regex a w true ending) (wardCandidates dbd dbw fd) initSt

def wardSt (dbp : ProvDB) (dbd : DistDB) (dbw : WardDB) (ending : Char → Bool)
    (input : Str) : ScanSt :=
  if (distSt dbp dbd ending input).found ≠ "" then
    wardScanOf dbd dbw ending (address3 dbp dbd ending input) (distSt dbp dbd ending input).found
  else initSt

/-- The address after removing the last occurrence of the winning ward alias
(if any). -/
def address4 (dbp : ProvDB) (dbd : DistDB) (dbw : WardDB) (ending : Char → Bool)
    (input : Str) : Str :=
  if (distSt dbp dbd ending input).found ≠ "" ∧ (wardSt dbp dbd dbw ending input).found ≠ "" then
    replace_last_occurrences (address3 dbp dbd ending input) (wardSt dbp dbd dbw ending input).choose []
  else address3 dbp dbd ending input

/-- The canonical province name placed in the output. -/
def provinceNameOut (dbp : ProvDB) (dbd : DistDB) (ending : Char → Bool) (input : Str) : Str :=
  ((lookup dbp (provKeyFinal dbp dbd ending input)).map ProvinceData.name).getD []

def districtNameOut (dbp : ProvDB) (dbd : DistDB) (ending : Char → Bool) (input : Str) : Str :=
  ((lookup dbd (distSt dbp dbd ending input).found).map DistrictData.name).getD []

def wardNameOut (dbp : ProvDB) (dbd : DistDB) (dbw : WardDB) (ending : Char → Bool)
    (input : Str) : Str :=
  ((lookup dbw (wardSt dbp dbd dbw ending input).found).map WardData.name).getD []

/-- `parse_address` from the source: the assembled output string
`<address> <ward>, <district>, <province>`. -/
def parse_address (input : Str) (dbp : ProvDB) (dbd : DistDB) (dbw : WardDB)
    (ending : Char → Bool) : Str :=
  address4 dbp dbd dbw ending input ++ ' ' :: wardNameOut dbp dbd dbw ending input
    ++ (", ".toList) ++ districtNameOut dbp dbd ending input
    ++ (", ".toList) ++ provinceNameOut dbp dbd ending input

/-- The terminator class `SPECIAL_ENDING = r"[g.;,\s]"` from the source. -/
def SPECIAL_ENDING (c : Char) : Bool :=
  c = 'g' || c = '.' || c = ';' || c = ',' || isWsChar c

/-! ### Derived notions used to state the claims -/

/-- `w` occurs in `s` at index `i` (plain substring occurrence). -/
def OccursAt (s w : Str) (i : Nat) : Prop := substrAtB w s i = true

instance (s w : Str) (i : Nat) : Decidable (OccursAt s w i) := by
  unfold OccursAt; infer_instance

/-- The flattened candidate list of a nested scan: one `(unit, word)` pair per
alias word, in scan order. -/
def unitWords (units : List (String × List Str)) : List (String × Str) :=
  units.flatMap (fun p => p.2.map (fun w => (p.1, w)))

def scanPairs (idx : Str → Int) (ps : List (String × Str)) (st : ScanSt) : ScanSt :=
  ps.foldl (fun st c => scanStep idx c.1 st c.2) st

/-- No two adjacent plain spaces. -/
def SpacedOK (a b : Char) : Prop := ¬(a = ' ' ∧ b = ' ')

def OptNonWs : Option Char → Prop
  | none => True
  | some c => isWsChar c = false

/-- Canonical spacing, as produced by `init_cap_words`: every whitespace
character is a plain space, no two spaces are adjacent, and the string neither
starts nor ends with whitespace. -/
def Canon (s : Str) : Prop :=
  (∀ c ∈ s, isWsChar c = true → c = ' ') ∧
  List.Chain' SpacedOK s ∧ OptNonWs s.head? ∧ OptNonWs s.getLast?

/-- Absence of a fixed non-space, case-stable character is preserved by the
final pipeline steps.  `PunctFree` states that no character of the string is
one of the stripped punctuation marks. -/
def PunctFree (s : Str) : Prop := ∀ c ∈ s, ADDRESS_PUNCTUATIONS.contains c = false

/-- A substitution matcher whose matches are nonempty and whose replacements
are nonempty and whitespace-free. -/
def GoodRepl (m : Matcher) : Prop :=
  ∀ prev s n r, m prev s = some (n, r) →
    1 ≤ n ∧ r ≠ [] ∧ ∀ c ∈ r, isWsChar c = false

/-! ### Concrete gazetteers used by witnesses and counterexamples -/

/-- Two districts whose aliases overlap inside the token `Banana`. -/
def exDistrictsOverlap : DistDB :=
  [("D1", ⟨("Dist One".toList), [("ana".toList)], 1, []⟩),
   ("D2", ⟨("Dist Two".toList), [("nana".toList)], 1, []⟩)]

/-- A province whose alias `B` leaves a dangling `Thanh Pho ,` after removal. -/
def exProvinceB : ProvDB :=
  [("P1", ⟨1, ("Prov One".toList), [("B".toList)], []⟩)]

def exDistrictFoo : DistDB :=
  [("D1", ⟨("Dist One".toList), [("Foo".toList)], 1, []⟩)]

/-- A province with alias `Go` (for the repeated-alias scenario). -/
def exProvinceGo : ProvDB :=
  [("P1", ⟨1, ("Prov One".toList), [("Go".toList)], []⟩)]

/-- Parent-inference example: province of id 7 owning district `Q1`. -/
def exProvinceHCM : ProvDB :=
  [("HCM", ⟨7, ("Ho Chi Minh City".toList), [("Zzz".toList)], ["Q1"]⟩)]

def exDistrictQ1 : DistDB :=
  [("Q1", ⟨("District 1".toList), [("Q1".toList)], 7, []⟩)]

/-- A two-district province for the hierarchical-constraint witness. -/
def exProvinceTwoDist : ProvDB :=
  [("P1", ⟨1, ("Prov One".toList), [("Px".toList)], ["D1", "D2"]⟩)]

def exDistrictsTwo : DistDB :=
  [("D1", ⟨("Dist One".toList), [("Aa".toList)], 1, []⟩),
   ("D2", ⟨("Dist Two".toList), [("Bb".toList)], 1, []⟩)]

/-! ## Properties of the selection loop -/

theorem scanUnits_eq_scanPairs (idx : Str → Int) (units : List (String × List Str))
    (st : ScanSt) : scanUnits idx units st = scanPairs idx (unitWords units) st := by
  induction units generalizing st with
  | nil => rfl
  | cons p rest ih =>
      simp only [scanUnits, List.foldl_cons, unitWords, List.flatMap_cons, scanPairs,
        List.foldl_append, List.foldl_map]
      rw [← scanUnits, ih]
      rfl

theorem scanStep_largest_le (idx : Str → Int) (u : String) (st : ScanSt) (w : Str) :
    st.largest ≤ (scanStep idx u st w).largest := by
  unfold scanStep
  split
  · rename_i h
    rcases h with h | ⟨h1, _⟩
    · exact le_of_lt h
    · exact le_of_eq h1.symm
  · exact le_rfl

theorem scanStep_idx_le (idx : Str → Int) (u : String) (st : ScanSt) (w : Str) :
    idx w ≤ (scanStep idx u st w).largest := by
  unfold scanStep
  split
  · exact le_rfl
  · rename_i h
    push_neg at h
    exact h.1

theorem scanStep_pos (idx : Str → Int) (u : String) (st : ScanSt) (w : Str)
    (h : idx w > st.largest ∨
      (idx w = st.largest ∧ st.largest > -1 ∧ w.length > st.choose.length)) :
    scanStep idx u st w = ⟨u, w, idx w⟩ := by
  unfold scanStep
  rw [if_pos h]

theorem scanStep_neg (idx : Str → Int) (u : String) (st : ScanSt) (w : Str)
    (h : ¬(idx w > st.largest ∨
      (idx w = st.largest ∧ st.largest > -1 ∧ w.length > st.choose.length))) :
    scanStep idx u st w = st := by
  unfold scanStep
  rw [if_neg h]

theorem scanPairs_largest_le (idx : Str → Int) (ps : List (String × Str)) (st : ScanSt) :
    st.largest ≤ (scanPairs idx ps st).largest := by
  induction ps generalizing st with
  | nil => exact le_rfl
  | cons c rest ih =>
      exact le_trans (scanStep_largest_le idx c.1 st c.2) (ih _)

theorem scanPairs_largest_ge_idx (idx : Str → Int) (ps : List (String × Str)) (st : ScanSt) :
    ∀ c ∈ ps, idx c.2 ≤ (scanPairs idx ps st).largest := by
  induction ps generalizing st with
  | nil => intro c hc; cases hc
  | cons c0 rest ih =>
      intro c hc
      rcases List.mem_cons.mp hc with h | h
      · subst h
        exact le_trans (scanStep_idx_le idx c.1 st c.2)
          (scanPairs_largest_le idx rest _)
      · exact ih _ c h

theorem scanPairs_mem (idx : Str → Int) (ps : List (String × Str)) (st : ScanSt) :
    scanPairs idx ps st = st ∨
      ∃ c ∈ ps, scanPairs idx ps st = ⟨c.1, c.2, idx c.2⟩ := by
  induction ps generalizing st with
  | nil => exact Or.inl rfl
  | cons c0 rest ih =>
      have hstep : scanStep idx c0.1 st c0.2 = ⟨c0.1, c0.2, idx c0.2⟩ ∨
          scanStep idx c0.1 st c0.2 = st := by
        by_cases hcond : idx c0.2 > st.largest ∨
            (idx c0.2 = st.largest ∧ st.largest > -1 ∧ c0.2.length > st.choose.length)
        · exact Or.inl (scanStep_pos idx c0.1 st c0.2 hcond)
        · exact Or.inr (scanStep_neg idx c0.1 st c0.2 hcond)
      rcases ih (scanStep idx c0.1 st c0.2) with h | ⟨c, hc, h⟩
      · rcases hstep with h2 | h2
        · exact Or.inr ⟨c0, List.mem_cons_self _ _, by
            show scanPairs idx rest _ = _
            rw [h, h2]⟩
        · exact Or.inl (by show scanPairs idx rest _ = _; rw [h, h2])
      · exact Or.inr ⟨c, List.mem_cons_of_mem _ hc, h⟩

theorem scanPairs_largest_eq_choose (idx : Str → Int) (ps : List (String × Str)) (st : ScanSt)
    (h : (scanPairs idx ps st).largest = st.largest) :
    st.choose.length ≤ (scanPairs idx ps st).choose.length := by
  induction ps generalizing st with
  | nil => exact le_rfl
  | cons c0 rest ih =>
      have hmono1 : st.largest ≤ (scanStep idx c0.1 st c0.2).largest :=
        scanStep_largest_le idx c0.1 st c0.2
      have hmono2 : (scanStep idx c0.1 st c0.2).largest ≤
          (scanPairs idx rest (scanStep idx c0.1 st c0.2)).largest :=
        scanPairs_largest_le idx rest _
      have hfin : scanPairs idx (c0 :: rest) st = scanPairs idx rest (scanStep idx c0.1 st c0.2) := rfl
      rw [hfin] at h ⊢
      have heq : (scanStep idx c0.1 st c0.2).largest = st.largest := by omega
      have h1 : st.choose.length ≤ (scanStep idx c0.1 st c0.2).choose.length := by
        by_cases hcond : idx c0.2 > st.largest ∨
            (idx c0.2 = st.largest ∧ st.largest > -1 ∧ c0.2.length > st.choose.length)
        · have hup := scanStep_pos idx c0.1 st c0.2 hcond
          rw [hup] at heq ⊢
          rcases hcond with hgt | ⟨_, _, hlen⟩
          · exact absurd heq (by exact ne_of_gt hgt)
          · exact le_of_lt hlen
        · rw [scanStep_neg idx c0.1 st c0.2 hcond]
      exact le_trans h1 (ih _ (by omega))

theorem scanPairs_tie (idx : Str → Int) (ps : List (String × Str)) (st : ScanSt) :
    ∀ c ∈ ps, idx c.2 = (scanPairs idx ps st).largest → -1 < (scanPairs idx ps st).largest →
      c.2.length ≤ (scanPairs idx ps st).choose.length := by
  induction ps generalizing st with
  | nil => intro c hc; cases hc
  | cons c0 rest ih =>
      intro c hc hidx hpos
      have hfin : scanPairs idx (c0 :: rest) st = scanPairs idx rest (scanStep idx c0.1 st c0.2) := rfl
      rcases List.mem_cons.mp hc with h | h
      · subst h
        rw [hfin] at hidx hpos ⊢
        by_cases hcond : idx c.2 > st.largest ∨
            (idx c.2 = st.largest ∧ st.largest > -1 ∧ c.2.length > st.choose.length)
        · have hup := scanStep_pos idx c.1 st c.2 hcond
          rw [hup] at hidx hpos ⊢
          have heq : (scanPairs idx rest ⟨c.1, c.2, idx c.2⟩).largest =
              (ScanSt.mk c.1 c.2 (idx c.2)).largest := hidx.symm
          have hch := scanPairs_largest_eq_choose idx rest _ heq
          exact hch
        · have hst := scanStep_neg idx c.1 st c.2 hcond
          rw [hst] at hidx hpos ⊢
          push_neg at hcond
          have hle : idx c.2 ≤ st.largest := hcond.1
          have hge : st.largest ≤ (scanPairs idx rest st).largest :=
            scanPairs_largest_le idx rest st
          have heq : st.largest = (scanPairs idx rest st).largest := by omega
          have hlen : c.2.length ≤ st.choose.length := hcond.2 (by omega) (by omega)
          have hch := scanPairs_largest_eq_choose idx rest st heq.symm
          omega
      · exact ih _ c h (by rw [hfin] at hidx; exact hidx) (by rw [hfin] at hpos; exact hpos)

theorem scanPairs_init_of_neg (idx : Str → Int) (ps : List (String × Str)) (st : ScanSt)
    (hst : st.largest = -1) (h : ∀ c ∈ ps, idx c.2 = -1) : scanPairs idx ps st = st := by
  induction ps generalizing st with
  | nil => rfl
  | cons c0 rest ih =>
      have hc0 := h c0 (List.mem_cons_self _ _)
      have hstep : scanStep idx c0.1 st c0.2 = st := by
        apply scanStep_neg
        rw [hc0, hst]
        push_neg
        refine ⟨by omega, ?_⟩
        intro _ hcon
        omega
      show scanPairs idx rest (scanStep idx c0.1 st c0.2) = st
      rw [hstep]
      exact ih st hst (fun c hc => h c (List.mem_cons_of_mem _ hc))

/-! ## Properties of `rfind` and occurrence removal -/

theorem findMaxAux_some (p : Nat → Bool) (b m : Nat) (h : findMaxAux p b = some m) :
    p m = true ∧ m ≤ b ∧ ∀ k, k ≤ b → p k = true → k ≤ m := by
  induction b with
  | zero =>
      unfold findMaxAux at h
      split at h
      · rename_i hp
        cases h
        exact ⟨hp, le_rfl, fun k hk _ => hk⟩
      · cases h
  | succ n ih =>
      unfold findMaxAux at h
      split at h
      · rename_i hp
        cases h
        exact ⟨hp, le_rfl, fun k hk _ => hk⟩
      · rename_i hp
        obtain ⟨h1, h2, h3⟩ := ih h
        refine ⟨h1, le_trans h2 (Nat.le_succ n), ?_⟩
        intro k hk hpk
        by_cases hke : k = n + 1
        · subst hke
          rw [hpk] at hp
          exact absurd rfl hp
        · exact h3 k (by omega) hpk

theorem findMaxAux_none (p : Nat → Bool) (b : Nat) (h : findMaxAux p b = none) :
    ∀ k, k ≤ b → p k = false := by
  induction b with
  | zero =>
      unfold findMaxAux at h
      split at h
      · cases h
      · rename_i hp
        intro k hk
        interval_cases k
        exact Bool.eq_false_iff.mpr hp
  | succ n ih =>
      unfold findMaxAux at h
      split at h
      · cases h
      · rename_i hp
        intro k hk
        by_cases hke : k = n + 1
        · subst hke
          exact Bool.eq_false_iff.mpr hp
        · exact ih h k (by omega)

theorem substrAtB_le_length (w s : Str) (i : Nat) (h : substrAtB w s i = true) :
    i ≤ s.length := by
  unfold substrAtB at h
  simp only [Bool.and_eq_true, decide_eq_true_eq] at h
  omega

theorem rfindOpt_some_spec (s w : Str) (m : Nat) (h : rfindOpt s w = some m) :
    OccursAt s w m ∧ ∀ k, OccursAt s w k → k ≤ m := by
  obtain ⟨h1, _, h3⟩ := findMaxAux_some _ _ _ h
  exact ⟨h1, fun k hk => h3 k (substrAtB_le_length w s k hk) hk⟩

theorem rfindOpt_none_spec (s w : Str) (h : rfindOpt s w = none) :
    ∀ k, ¬OccursAt s w k := by
  intro k hk
  have := findMaxAux_none _ _ h k (substrAtB_le_length w s k hk)
  rw [OccursAt] at hk
  rw [hk] at this
  cases this

theorem rfindOpt_isSome (s w : Str) (k : Nat) (h : OccursAt s w k) :
    ∃ m, rfindOpt s w = some m := by
  cases hm : rfindOpt s w with
  | none => exact absurd h (rfindOpt_none_spec s w hm k)
  | some m => exact ⟨m, rfl⟩

/-- `replace_last_occurrences` deletes exactly the rightmost occurrence. -/
theorem replace_last_spec (a w : Str) (k : Nat) (h : OccursAt a w k) :
    ∃ m, OccursAt a w m ∧ (∀ j, OccursAt a w j → j ≤ m) ∧
      replace_last_occurrences a w [] = a.take m ++ a.drop (m + w.length) := by
  by_cases hw : w = []
  · subst hw
    refine ⟨a.length, ?_, ?_, ?_⟩
    · unfold OccursAt substrAtB
      simp
    · intro j hj
      exact substrAtB_le_length [] a j hj
    · unfold replace_last_occurrences
      rw [if_pos rfl]
      simp
  · obtain ⟨m, hm⟩ := rfindOpt_isSome a w k h
    obtain ⟨h1, h2⟩ := rfindOpt_some_spec a w m hm
    refine ⟨m, h1, h2, ?_⟩
    unfold replace_last_occurrences
    rw [if_neg hw, hm]
    simp

theorem mem_unitWords_map {l : List String} {f : String → List Str} {c : String × Str}
    (h : c ∈ unitWords (l.map (fun dk => (dk, f dk)))) : c.1 ∈ l ∧ c.2 ∈ f c.1 := by
  unfold unitWords at h
  simp only [List.mem_flatMap, List.mem_map] at h
  obtain ⟨p, ⟨dk, hdk, rfl⟩, hw⟩ := h
  simp only [List.mem_map] at hw
  obtain ⟨w, hw, rfl⟩ := hw
  exact ⟨hdk, hw⟩

/-! ## Character facts -/

theorem char_toNat_ofNat (n : Nat) (h : n.isValidChar) : (Char.ofNat n).toNat = n := by
  unfold Char.ofNat
  rw [dif_pos h]
  rfl

theorem char_toUpper_or (c : Char) :
    c.toUpper = c ∨ (65 ≤ c.toUpper.toNat ∧ c.toUpper.toNat ≤ 90) := by
  unfold Char.toUpper
  simp only []
  split
  · rename_i h
    right
    have hv : (Char.toNat c - 32).isValidChar := by
      unfold Nat.isValidChar
      left
      omega
    rw [char_toNat_ofNat _ hv]
    omega
  · left; rfl

theorem char_toLower_or (c : Char) :
    c.toLower = c ∨ (97 ≤ c.toLower.toNat ∧ c.toLower.toNat ≤ 122) := by
  unfold Char.toLower
  simp only []
  split
  · rename_i h
    right
    have hv : (Char.toNat c + 32).isValidChar := by
      unfold Nat.isValidChar
      left
      omega
    rw [char_toNat_ofNat _ hv]
    omega
  · left; rfl

theorem ws_toNat_le (c : Char) (h : isWsChar c = true) : c.toNat ≤ 32 := by
  unfold isWsChar at h
  simp only [Bool.or_eq_true, decide_eq_true_eq] at h
  rcases h with ((((h | h) | h) | h) | h) | h <;> subst h <;> decide

theorem not_ws_of_toNat_lt (c : Char) (h1 : 32 < c.toNat) : isWsChar c = false := by
  cases hw : isWsChar c
  · rfl
  · have := ws_toNat_le c hw
    omega

theorem toUpper_not_ws (c : Char) (h : isWsChar c = false) : isWsChar c.toUpper = false := by
  rcases char_toUpper_or c with he | ⟨h1, _⟩
  · rw [he]; exact h
  · exact not_ws_of_toNat_lt _ (by omega)

theorem toLower_not_ws (c : Char) (h : isWsChar c = false) : isWsChar c.toLower = false := by
  rcases char_toLower_or c with he | ⟨h1, _⟩
  · rw [he]; exact h
  · exact not_ws_of_toNat_lt _ (by omega)

theorem digit_not_ws (c : Char) (h : c.isDigit = true) : isWsChar c = false := by
  unfold Char.isDigit at h
  simp only [Bool.and_eq_true, decide_eq_true_eq] at h
  apply not_ws_of_toNat_lt
  have h2 : (48 : UInt32).toNat ≤ c.val.toNat := h.1
  have h3 : (48 : UInt32).toNat = 48 := by decide
  have h4 : c.toNat = c.val.toNat := rfl
  omega

/-! ## Generic substitution-scanner lemmas -/

theorem reSubM_id (m : Matcher) (fuel : Nat) (prev : Option Char) (s : Str)
    (h : ∀ prev' k, m prev' (s.drop k) = none) : reSubM m fuel prev s = s := by
  induction fuel generalizing prev s with
  | zero => rfl
  | succ n ih =>
      cases s with
      | nil => rfl
      | cons c rest =>
          unfold reSubM
          have h0 := h prev 0
          simp only [List.drop_zero] at h0
          rw [h0]
          rw [ih (some c) rest (fun p k => h p (k + 1))]

theorem reSubM_ne_nil (m : Matcher) (hm : GoodRepl m) (fuel : Nat) (prev : Option Char)
    (s : Str) (h : s ≠ []) : reSubM m fuel prev s ≠ [] := by
  cases fuel with
  | zero => exact h
  | succ n =>
      cases s with
      | nil => exact absurd rfl h
      | cons c rest =>
          unfold reSubM
          cases hmc : m prev (c :: rest) with
          | none => simp
          | some nr =>
              obtain ⟨_, hr, _⟩ := hm prev (c :: rest) nr.1 nr.2 (by rw [hmc])
              simp [hr]

theorem reSubM_all (m : Matcher) (P : Char → Prop) (fuel : Nat) (prev : Option Char) (s : Str)
    (hs : ∀ c ∈ s, P c)
    (hm : ∀ prev' s' n r, (∀ c ∈ s', P c) → m prev' s' = some (n, r) → ∀ c ∈ r, P c) :
    ∀ c ∈ reSubM m fuel prev s, P c := by
  induction fuel generalizing prev s with
  | zero => exact hs
  | succ n ih =>
      cases s with
      | nil => exact hs
      | cons c rest =>
          unfold reSubM
          cases hmc : m prev (c :: rest) with
          | none =>
              intro x hx
              rcases List.mem_cons.mp hx with hx | hx
              · exact hs x (hx ▸ List.mem_cons_self c rest)
              · exact ih (some c) rest (fun y hy => hs y (List.mem_cons_of_mem c hy)) x hx
          | some nr =>
              intro x hx
              rcases List.mem_append.mp hx with hx | hx
              · exact hm prev (c :: rest) nr.1 nr.2 hs (by rw [hmc]) x hx
              · refine ih _ _ (fun y hy => hs y (List.mem_of_mem_drop hy)) x hx

/-! ## Canonical-spacing invariants -/

theorem spacedOK_of_left (a b : Char) (h : isWsChar a = false) : SpacedOK a b := by
  rintro ⟨h1, _⟩
  rw [h1] at h
  exact absurd h (by decide)

theorem spacedOK_of_right (a b : Char) (h : isWsChar b = false) : SpacedOK a b := by
  rintro ⟨_, h2⟩
  rw [h2] at h
  exact absurd h (by decide)

theorem chain'_of_nonws (r : Str) (h : ∀ c ∈ r, isWsChar c = false) :
    List.Chain' SpacedOK r := by
  induction r with
  | nil => exact List.chain'_nil
  | cons a t ih =>
      rw [List.chain'_cons']
      exact ⟨fun y _ => spacedOK_of_left a y (h a (List.mem_cons_self _ _)),
        ih fun c hc => h c (List.mem_cons_of_mem _ hc)⟩

theorem getLast?_drop_of_ne_nil (s : Str) (n : Nat) (h : s.drop n ≠ []) :
    (s.drop n).getLast? = s.getLast? := by
  conv_rhs => rw [← List.take_append_drop n s]
  rw [List.getLast?_append_of_ne_nil _ h]

theorem getLast?_cons_of_ne_nil (c : Char) (rest : Str) (h : rest ≠ []) :
    (c :: rest).getLast? = rest.getLast? := by
  rw [show (c :: rest) = [c] ++ rest from rfl, List.getLast?_append_of_ne_nil _ h]

theorem optNonWs_of_mem (r : Str) (hr : ∀ c ∈ r, isWsChar c = false) (o : Option Char)
    (h : ∀ a, o = some a → a ∈ r) : OptNonWs o := by
  cases o with
  | none => trivial
  | some a => exact hr a (h a rfl)

theorem reSubM_canon_aux (m : Matcher) (hm : GoodRepl m) (fuel : Nat) :
    ∀ (prev : Option Char) (s : Str), List.Chain' SpacedOK s → OptNonWs s.getLast? →
    List.Chain' SpacedOK (reSubM m fuel prev s) ∧
      OptNonWs (reSubM m fuel prev s).getLast? ∧
      ((reSubM m fuel prev s).head? = s.head? ∨
        ∃ c, (reSubM m fuel prev s).head? = some c ∧ isWsChar c = false) := by
  induction fuel with
  | zero => exact fun prev s h2 h3 => ⟨h2, h3, Or.inl rfl⟩
  | succ n ih =>
      intro prev s h2 h3
      cases s with
      | nil => exact ⟨h2, h3, Or.inl rfl⟩
      | cons c rest =>
          unfold reSubM
          cases hmc : m prev (c :: rest) with
          | none =>
              cases hre : rest with
              | nil =>
                  have he : reSubM m n (some c) ([] : Str) = [] := by cases n <;> rfl
                  rw [he]
                  subst hre
                  exact ⟨List.chain'_singleton c, h3, Or.inl rfl⟩
              | cons d rest' =>
                  subst hre
                  have hld := getLast?_cons_of_ne_nil c (d :: rest') (by simp)
                  obtain ⟨ih1, ih2, ih3⟩ := ih (some c) (d :: rest') h2.tail (by
                    rw [← hld]; exact h3)
                  have hne : reSubM m n (some c) (d :: rest') ≠ [] :=
                    reSubM_ne_nil m hm n (some c) (d :: rest') (by simp)
                  refine ⟨?_, ?_, Or.inl rfl⟩
                  · rw [List.chain'_cons']
                    refine ⟨?_, ih1⟩
                    intro y hy
                    rcases ih3 with hh | ⟨z, hz, hzw⟩
                    · rw [hh] at hy
                      have := (List.chain'_cons'.mp h2).1
                      exact this y hy
                    · rw [hz] at hy
                      cases hy
                      exact spacedOK_of_right c y hzw
                  · rw [getLast?_cons_of_ne_nil c _ hne]
                    exact ih2
          | some nr =>
              obtain ⟨len, repl⟩ := nr
              obtain ⟨hn, hrne, hrws⟩ := hm prev (c :: rest) len repl hmc
              dsimp only
              have hChainR : List.Chain' SpacedOK repl := chain'_of_nonws repl hrws
              by_cases hrm : (c :: rest).drop len = []
              · have he : reSubM m n (((c :: rest).take len).getLast?) ((c :: rest).drop len)
                    = [] := by
                  rw [hrm]; cases n <;> rfl
                rw [he, List.append_nil]
                refine ⟨hChainR, ?_, ?_⟩
                · exact optNonWs_of_mem repl hrws _ (fun a ha => List.mem_of_mem_getLast? ha)
                · right
                  cases repl with
                  | nil => exact absurd rfl hrne
                  | cons r0 rr =>
                      exact ⟨r0, rfl, hrws r0 (List.mem_cons_self _ _)⟩
              · obtain ⟨ih1, ih2, ih3⟩ := ih (((c :: rest).take len).getLast?)
                  ((c :: rest).drop len) (h2.drop len) (by
                    rw [getLast?_drop_of_ne_nil _ _ hrm]; exact h3)
                have hne : reSubM m n (((c :: rest).take len).getLast?)
                    ((c :: rest).drop len) ≠ [] :=
                  reSubM_ne_nil m hm n _ _ hrm
                refine ⟨?_, ?_, ?_⟩
                · rw [List.chain'_append]
                  refine ⟨hChainR, ih1, ?_⟩
                  intro x hx y _
                  exact spacedOK_of_left x y (hrws x (List.mem_of_mem_getLast? hx))
                · rw [List.getLast?_append_of_ne_nil _ hne]
                  exact ih2
                · right
                  cases repl with
                  | nil => exact absurd rfl hrne
                  | cons r0 rr =>
                      refine ⟨r0, ?_, hrws r0 (List.mem_cons_self _ _)⟩
                      rw [List.head?_append_of_ne_nil (r0 :: rr) (by simp)]
                      rfl

theorem canon_nil : Canon ([] : Str) := by
  refine ⟨fun c hc => absurd hc (List.not_mem_nil c), List.chain'_nil, trivial, trivial⟩

theorem pySub_canon (m : Matcher) (hm : GoodRepl m)
    (s : Str) (h : Canon s) : Canon (pySub m s) := by
  obtain ⟨h1, h2, h3, h4⟩ := h
  obtain ⟨c1, c2, c3⟩ := reSubM_canon_aux m hm s.length none s h2 h4
  refine ⟨?_, c1, ?_, c2⟩
  · intro c hc hcw
    have := reSubM_all m (fun c => isWsChar c = true → c = ' ') s.length none s h1
      (fun prev s' n r _ hmr c hcr => fun hw => by
        have := (hm prev s' n r hmr).2.2 c hcr
        rw [hw] at this
        exact absurd this (by decide))
      c hc
    exact this hcw
  · rcases c3 with hh | ⟨c, hc, hcw⟩
    · show OptNonWs (reSubM m s.length none s).head?
      rw [hh]
      exact h3
    · show OptNonWs (reSubM m s.length none s).head?
      rw [hc]
      exact hcw

/-! ## Canonical form of `init_cap_words` output -/

theorem splitWsAux_tokens (fuel : Nat) :
    ∀ (s : Str) (t : Str), t ∈ splitWsAux fuel s → t ≠ [] ∧ ∀ c ∈ t, isWsChar c = false := by
  induction fuel with
  | zero => intro s t ht; cases ht
  | succ n ih =>
      intro s t ht
      unfold splitWsAux at ht
      simp only [] at ht
      by_cases hnil : s.dropWhile isWsChar = []
      · rw [if_pos hnil] at ht
        cases ht
      · rw [if_neg hnil] at ht
        rcases List.mem_cons.mp ht with hh | hh
        · subst hh
          constructor
          · cases hd : s.dropWhile isWsChar with
            | nil => exact absurd hd hnil
            | cons d dr =>
                have hdw : isWsChar d = false := by
                  have := List.head?_dropWhile_not isWsChar s
                  rw [hd] at this
                  simpa using this
                simp [List.takeWhile_cons, hdw]
          · intro c hc
            have := List.mem_takeWhile_imp hc
            simpa using this
        · exact ih _ t hh

theorem joinSpace_ne_nil (ts : List Str) (h0 : ts ≠ [])
    (h : ∀ t ∈ ts, t ≠ []) : joinSpace ts ≠ [] := by
  cases ts with
  | nil => exact absurd rfl h0
  | cons t tl =>
      cases tl with
      | nil => exact h t (List.mem_cons_self _ _)
      | cons t2 tl2 =>
          show t ++ ' ' :: joinSpace (t2 :: tl2) ≠ []
          simp

theorem joinSpace_canon (ts : List Str)
    (h : ∀ t ∈ ts, t ≠ [] ∧ ∀ c ∈ t, isWsChar c = false) : Canon (joinSpace ts) := by
  induction ts with
  | nil => exact canon_nil
  | cons t tl ih =>
      obtain ⟨htne, htws⟩ := h t (List.mem_cons_self _ _)
      cases tl with
      | nil =>
          show Canon t
          refine ⟨?_, chain'_of_nonws t htws, ?_, ?_⟩
          · intro c hc hcw
            rw [htws c hc] at hcw
            cases hcw
          · exact optNonWs_of_mem t htws _ (fun a ha => List.mem_of_mem_head? ha)
          · exact optNonWs_of_mem t htws _ (fun a ha => List.mem_of_mem_getLast? ha)
      | cons t2 tl2 =>
          have htl : ∀ u ∈ (t2 :: tl2), u ≠ [] ∧ ∀ c ∈ u, isWsChar c = false :=
            fun u hu => h u (List.mem_cons_of_mem _ hu)
          obtain ⟨ih1, ih2, ih3, ih4⟩ := ih htl
          have hjne : joinSpace (t2 :: tl2) ≠ [] :=
            joinSpace_ne_nil _ (by simp) (fun u hu => (htl u hu).1)
          have hshape : joinSpace (t :: t2 :: tl2) = t ++ ' ' :: joinSpace (t2 :: tl2) := rfl
          rw [hshape]
          refine ⟨?_, ?_, ?_, ?_⟩
          · intro c hc hcw
            rcases List.mem_append.mp hc with hc | hc
            · rw [htws c hc] at hcw
              cases hcw
            · rcases List.mem_cons.mp hc with hc | hc
              · exact hc
              · exact ih1 c hc hcw
          · rw [List.chain'_append]
            refine ⟨chain'_of_nonws t htws, ?_, ?_⟩
            · rw [List.chain'_cons']
              refine ⟨?_, ih2⟩
              intro y hy
              have hsome : (joinSpace (t2 :: tl2)).head? = some y := hy
              rw [hsome] at ih3
              exact spacedOK_of_right ' ' y ih3
            · intro x hx y _
              exact spacedOK_of_left x y (htws x (List.mem_of_mem_getLast? hx))
          · rw [List.head?_append_of_ne_nil _ htne]
            exact optNonWs_of_mem t htws _ (fun a ha => List.mem_of_mem_head? ha)
          · rw [List.getLast?_append_of_ne_nil _ (by simp)]
            rw [getLast?_cons_of_ne_nil _ _ hjne]
            exact ih4

theorem pyCapitalize_tokens (t : Str) (h1 : t ≠ []) (h2 : ∀ c ∈ t, isWsChar c = false) :
    pyCapitalize t ≠ [] ∧ ∀ c ∈ pyCapitalize t, isWsChar c = false := by
  cases t with
  | nil => exact absurd rfl h1
  | cons c cs =>
      refine ⟨by simp [pyCapitalize], ?_⟩
      intro x hx
      rcases List.mem_cons.mp hx with hx | hx
      · subst hx
        exact toUpper_not_ws c (h2 c (List.mem_cons_self _ _))
      · obtain ⟨y, hy, rfl⟩ := List.mem_map.mp hx
        exact toLower_not_ws y (h2 y (List.mem_cons_of_mem _ hy))

theorem init_cap_words_canon (x : Str) : Canon (init_cap_words x) := by
  unfold init_cap_words
  split
  · rename_i h
    rw [h]
    exact canon_nil
  · apply joinSpace_canon
    intro t ht
    obtain ⟨u, hu, rfl⟩ := List.mem_map.mp ht
    obtain ⟨hu1, hu2⟩ := splitWsAux_tokens x.length x u hu
    exact pyCapitalize_tokens u hu1 hu2

/-! ## The digit-normalization matchers are well behaved -/

theorem qdCore_inv (outHead : Char) (hl wsl : Nat) (r2 : Str) (n : Nat) (r : Str)
    (h : qdCore outHead hl wsl r2 = some (n, r)) :
    takeDigits r2 ≠ [] ∧ n = hl + wsl + (takeDigits r2).length ∧
      r = outHead :: takeDigits r2 := by
  unfold qdCore at h
  split at h
  · cases h
  · split at h
    · rename_i hds _
      simp only [Option.some.injEq, Prod.mk.injEq] at h
      exact ⟨hds, h.1.symm, h.2.symm⟩
    · cases h

theorem qdMatch_goodRepl (heads : List Str) (outHead : Char) (allowWs : Bool)
    (hws : isWsChar outHead = false) : GoodRepl (qdMatch heads outHead allowWs) := by
  intro prev s n r hmr
  unfold qdMatch at hmr
  split at hmr
  · obtain ⟨h, _, hsome⟩ := List.exists_of_findSome?_eq_some hmr
    unfold qdTry at hsome
    split at hsome
    · obtain ⟨hds, hn, hr⟩ := qdCore_inv _ _ _ _ _ _ hsome
      have hdl : 0 < (takeDigits ((s.drop h.length).drop
          (qdWs allowWs (s.drop h.length)).length)).length :=
        List.length_pos.mpr hds
      subst hn
      subst hr
      refine ⟨by omega, by simp, ?_⟩
      intro c hc
      rcases List.mem_cons.mp hc with hc | hc
      · subst hc
        exact hws
      · exact digit_not_ws c (by simpa using List.mem_takeWhile_imp hc)
    · cases hsome
  · cases hmr

theorem stripZerosCore_inv (letter : Char) (run rest : Str) (n : Nat) (r : Str)
    (h : stripZerosCore letter run rest = some (n, r)) :
    n = 1 + run.length ∧ r = letter :: run.drop (stripZerosCut run) := by
  unfold stripZerosCore at h
  split at h
  · simp only [Option.some.injEq, Prod.mk.injEq] at h
    exact ⟨h.1.symm, h.2.symm⟩
  · cases h

theorem stripZeros_goodRepl (letter : Char) (hws : isWsChar letter = false) :
    GoodRepl (stripZerosMatch letter) := by
  intro prev s n r hmr
  unfold stripZerosMatch at hmr
  split at hmr
  · cases s with
    | nil => cases hmr
    | cons c rest =>
        dsimp only at hmr
        split at hmr
        · obtain ⟨hn, hr⟩ := stripZerosCore_inv _ _ _ _ _ hmr
          subst hn
          subst hr
          refine ⟨by omega, by simp, ?_⟩
          intro x hx
          rcases List.mem_cons.mp hx with hx | hx
          · subst hx
            exact hws
          · have hxm : x ∈ takeDigits rest := List.mem_of_mem_drop hx
            exact digit_not_ws x (by simpa using List.mem_takeWhile_imp hxm)
        · cases hmr
  · cases hmr

theorem clean_digit_district_canon (s : Str) (h : Canon s) :
    Canon (clean_digit_district s) :=
  pySub_canon _ (stripZeros_goodRepl 'Q' (by decide)) _
    (pySub_canon _ (qdMatch_goodRepl _ 'Q' true (by decide)) s h)

theorem clean_digit_ward_canon (s : Str) (h : Canon s) :
    Canon (clean_digit_ward s) :=
  pySub_canon _ (stripZeros_goodRepl 'P' (by decide)) _
    (pySub_canon _ (qdMatch_goodRepl _ 'P' false (by decide)) _
      (pySub_canon _ (qdMatch_goodRepl _ 'P' true (by decide)) s h))

theorem add_space_separator_canon (s : Str) : Canon (add_space_separator s) :=
  init_cap_words_canon _

/-- The normalized address is canonically spaced: single plain spaces,
no leading or trailing whitespace. -/
theorem clean_full_address_canon (s : Str) : Canon (clean_full_address s) :=
  clean_digit_ward_canon _ (clean_digit_district_canon _ (add_space_separator_canon _))

/-! ## The normalized address contains no punctuation -/

theorem punct_char_toNat (c : Char) (h : ADDRESS_PUNCTUATIONS.contains c = true) :
    c.toNat = 46 ∨ c.toNat = 44 ∨ c.toNat = 33 ∨ c.toNat = 63 ∨ c.toNat = 59 ∨
    c.toNat = 58 ∨ c.toNat = 45 ∨ c.toNat = 95 ∨ c.toNat = 40 ∨ c.toNat = 41 ∨
    c.toNat = 34 ∨ c.toNat = 39 := by
  have hmem := List.mem_of_elem_eq_true h
  unfold ADDRESS_PUNCTUATIONS at hmem
  simp only [List.mem_cons, List.not_mem_nil, or_false] at hmem
  rcases hmem with h | h | h | h | h | h | h | h | h | h | h | h <;> subst h <;> simp

theorem no_punct_of_upper (c : Char) (h1 : 65 ≤ c.toNat) (h2 : c.toNat ≤ 90) :
    ADDRESS_PUNCTUATIONS.contains c = false := by
  cases hct : ADDRESS_PUNCTUATIONS.contains c
  · rfl
  · have := punct_char_toNat c hct
    omega

theorem no_punct_of_lower (c : Char) (h1 : 97 ≤ c.toNat) (h2 : c.toNat ≤ 122) :
    ADDRESS_PUNCTUATIONS.contains c = false := by
  cases hct : ADDRESS_PUNCTUATIONS.contains c
  · rfl
  · have := punct_char_toNat c hct
    omega

theorem no_punct_of_digit (c : Char) (h : c.isDigit = true) :
    ADDRESS_PUNCTUATIONS.contains c = false := by
  unfold Char.isDigit at h
  simp only [Bool.and_eq_true, decide_eq_true_eq] at h
  have h2 : (48 : UInt32).toNat ≤ c.val.toNat := h.1
  have h2b : c.val.toNat ≤ (57 : UInt32).toNat := h.2
  have h3 : (48 : UInt32).toNat = 48 := by decide
  have h3b : (57 : UInt32).toNat = 57 := by decide
  have h4 : c.toNat = c.val.toNat := rfl
  cases hct : ADDRESS_PUNCTUATIONS.contains c
  · rfl
  · have := punct_char_toNat c hct
    omega

theorem no_punct_toUpper (c : Char) (h : ADDRESS_PUNCTUATIONS.contains c = false) :
    ADDRESS_PUNCTUATIONS.contains c.toUpper = false := by
  rcases char_toUpper_or c with he | ⟨h1, h2⟩
  · rw [he]; exact h
  · exact no_punct_of_upper _ h1 h2

theorem no_punct_toLower (c : Char) (h : ADDRESS_PUNCTUATIONS.contains c = false) :
    ADDRESS_PUNCTUATIONS.contains c.toLower = false := by
  rcases char_toLower_or c with he | ⟨h1, h2⟩
  · rw [he]; exact h
  · exact no_punct_of_lower _ h1 h2

/-- Membership in the output of `pyStrip`. -/
theorem pyStrip_subset (s : Str) (c : Char) (h : c ∈ pyStrip s) : c ∈ s := by
  unfold pyStrip at h
  rw [List.mem_reverse] at h
  have h2 := (List.dropWhile_sublist _).mem h
  rw [List.mem_reverse] at h2
  exact (List.dropWhile_sublist _).mem h2

theorem collapseWsAux_mem (fuel : Nat) (s : Str) (c : Char)
    (h : c ∈ collapseWsAux fuel s) : c ∈ s ∨ c = ' ' := by
  induction fuel generalizing s with
  | zero => exact Or.inl h
  | succ n ih =>
      cases s with
      | nil => exact Or.inl h
      | cons a rest =>
          unfold collapseWsAux at h
          split at h
          · rcases List.mem_cons.mp h with h | h
            · exact Or.inr h
            · rcases ih _ h with h2 | h2
              · exact Or.inl (List.mem_cons_of_mem _ ((List.dropWhile_sublist _).mem h2))
              · exact Or.inr h2
          · rcases List.mem_cons.mp h with h | h
            · exact Or.inl (h ▸ List.mem_cons_self _ _)
            · rcases ih _ h with h2 | h2
              · exact Or.inl (List.mem_cons_of_mem _ h2)
              · exact Or.inr h2

theorem remove_spare_space_mem (s : Str) (c : Char) (h : c ∈ remove_spare_space s) :
    c ∈ s ∨ c = ' ' := by
  unfold remove_spare_space at h
  rcases collapseWsAux_mem _ _ _ h with h2 | h2
  · exact Or.inl (pyStrip_subset s c h2)
  · exact Or.inr h2

theorem splitWsAux_mem (fuel : Nat) :
    ∀ (s t : Str), t ∈ splitWsAux fuel s → ∀ c ∈ t, c ∈ s := by
  induction fuel with
  | zero => intro s t ht; cases ht
  | succ n ih =>
      intro s t ht c hc
      unfold splitWsAux at ht
      simp only [] at ht
      by_cases hnil : s.dropWhile isWsChar = []
      · rw [if_pos hnil] at ht
        cases ht
      · rw [if_neg hnil] at ht
        rcases List.mem_cons.mp ht with hh | hh
        · subst hh
          exact (List.dropWhile_sublist _).mem ((List.takeWhile_sublist _).mem hc)
        · have := ih _ t hh c hc
          exact (List.dropWhile_sublist _).mem ((List.dropWhile_sublist _).mem this)

theorem joinSpace_mem (ts : List Str) (c : Char) (h : c ∈ joinSpace ts) :
    c = ' ' ∨ ∃ t ∈ ts, c ∈ t := by
  induction ts with
  | nil => cases h
  | cons t tl ih =>
      cases tl with
      | nil => exact Or.inr ⟨t, List.mem_cons_self _ _, h⟩
      | cons t2 tl2 =>
          have hshape : joinSpace (t :: t2 :: tl2) = t ++ ' ' :: joinSpace (t2 :: tl2) := rfl
          rw [hshape] at h
          rcases List.mem_append.mp h with h | h
          · exact Or.inr ⟨t, List.mem_cons_self _ _, h⟩
          · rcases List.mem_cons.mp h with h | h
            · exact Or.inl h
            · rcases ih h with h2 | ⟨u, hu, hcu⟩
              · exact Or.inl h2
              · exact Or.inr ⟨u, List.mem_cons_of_mem _ hu, hcu⟩

theorem init_cap_words_mem (x : Str) (c : Char) (h : c ∈ init_cap_words x) :
    c = ' ' ∨ ∃ d ∈ x, c = d.toUpper ∨ c = d.toLower := by
  unfold init_cap_words at h
  split at h
  · rename_i hx
    rw [hx] at h
    cases h
  · rcases joinSpace_mem _ _ h with h2 | ⟨t, ht, hct⟩
    · exact Or.inl h2
    · obtain ⟨u, hu, rfl⟩ := List.mem_map.mp ht
      cases u with
      | nil => cases hct
      | cons d dr =>
          rcases List.mem_cons.mp hct with hc | hc
          · exact Or.inr ⟨d, splitWsAux_mem _ _ _ hu d (List.mem_cons_self _ _),
              Or.inl hc⟩
          · obtain ⟨e, he, rfl⟩ := List.mem_map.mp hc
            exact Or.inr ⟨e, splitWsAux_mem _ _ _ hu e (List.mem_cons_of_mem _ he),
              Or.inr rfl⟩

theorem punctFree_remove_punctuation (s : Str) :
    PunctFree (remove_punctuation s ADDRESS_PUNCTUATIONS) := by
  intro c hc
  unfold remove_punctuation at hc
  rw [if_neg (by simp [ADDRESS_PUNCTUATIONS])] at hc
  rcases remove_spare_space_mem _ _ hc with h2 | h2
  · have := List.of_mem_filter h2
    simpa using this
  · subst h2
    decide

theorem commaMatch_none (prev : Option Char) (s : Str) (h : (',' : Char) ∉ s) :
    commaMatch prev s = none := by
  cases hm : commaMatch prev s with
  | none => rfl
  | some v =>
      exfalso
      unfold commaMatch at hm
      simp only [] at hm
      split at hm
      · rename_i c rest heq
        split at hm
        · rename_i hc
          subst hc
          exact h (List.mem_of_mem_drop (by rw [heq]; exact List.mem_cons_self _ _))
        · cases hm
      · cases hm

theorem dotDashMatch_none (prev : Option Char) (s : Str)
    (h1 : ('.' : Char) ∉ s) (h2 : ('_' : Char) ∉ s) (h3 : ('-' : Char) ∉ s) :
    dotDashMatch prev s = none := by
  cases hm : dotDashMatch prev s with
  | none => rfl
  | some v =>
      exfalso
      unfold dotDashMatch at hm
      cases s with
      | nil => cases hm
      | cons c rest =>
          dsimp only at hm
          split at hm
          · rename_i hc
            rcases hc with hc | hc | hc <;> subst hc
            · exact h1 (List.mem_cons_self _ _)
            · exact h2 (List.mem_cons_self _ _)
            · exact h3 (List.mem_cons_self _ _)
          · cases hm

theorem punctFree_mem_neg (s : Str) (hp : PunctFree s) (c : Char)
    (hc : ADDRESS_PUNCTUATIONS.contains c = true) : c ∉ s := by
  intro hmem
  rw [hp c hmem] at hc
  cases hc

theorem punctFree_add_space_separator (s : Str) (hp : PunctFree s) :
    PunctFree (add_space_separator s) := by
  have e1 : pySub commaMatch s = s := by
    apply reSubM_id
    intro prev' k
    apply commaMatch_none
    intro hmem
    exact punctFree_mem_neg s hp ',' (by decide) (List.mem_of_mem_drop hmem)
  have e2 : pySub dotDashMatch s = s := by
    apply reSubM_id
    intro prev' k
    apply dotDashMatch_none
    · intro hmem
      exact punctFree_mem_neg s hp '.' (by decide) (List.mem_of_mem_drop hmem)
    · intro hmem
      exact punctFree_mem_neg s hp '_' (by decide) (List.mem_of_mem_drop hmem)
    · intro hmem
      exact punctFree_mem_neg s hp '-' (by decide) (List.mem_of_mem_drop hmem)
  show PunctFree (init_cap_words (pyStrip (collapseWs (pySub dotDashMatch (pySub commaMatch s)))))
  rw [e1, e2]
  intro c hc
  rcases init_cap_words_mem _ c hc with h2 | ⟨d, hd, hdu⟩
  · subst h2
    decide
  · have hds : d ∈ s ∨ d = ' ' := by
      have h3 : d ∈ collapseWs s := pyStrip_subset _ d hd
      exact collapseWsAux_mem _ _ _ h3
    rcases hdu with rfl | rfl
    · rcases hds with hds | rfl
      · exact no_punct_toUpper d (hp d hds)
      · decide
    · rcases hds with hds | rfl
      · exact no_punct_toLower d (hp d hds)
      · decide

theorem punctFree_pySub_digit (m : Matcher)
    (hdig : ∀ prev s' n r, m prev s' = some (n, r) →
      ∀ c ∈ r, ADDRESS_PUNCTUATIONS.contains c = false)
    (s : Str) (hp : PunctFree s) : PunctFree (pySub m s) := by
  intro c hc
  exact reSubM_all m (fun c => ADDRESS_PUNCTUATIONS.contains c = false) s.length none s hp
    (fun prev s' n r _ hmr => hdig prev s' n r hmr) c hc

theorem qdMatch_no_punct (heads : List Str) (outHead : Char) (allowWs : Bool)
    (hoh : ADDRESS_PUNCTUATIONS.contains outHead = false) :
    ∀ prev s' n r, qdMatch heads outHead allowWs prev s' = some (n, r) →
      ∀ c ∈ r, ADDRESS_PUNCTUATIONS.contains c = false := by
  intro prev s' n r hmr c hc
  unfold qdMatch at hmr
  split at hmr
  · obtain ⟨h, _, hsome⟩ := List.exists_of_findSome?_eq_some hmr
    unfold qdTry at hsome
    split at hsome
    · obtain ⟨_, _, hr⟩ := qdCore_inv _ _ _ _ _ _ hsome
      subst hr
      rcases List.mem_cons.mp hc with hc | hc
      · subst hc
        exact hoh
      · exact no_punct_of_digit c (by simpa using List.mem_takeWhile_imp hc)
    · cases hsome
  · cases hmr

theorem stripZeros_no_punct (letter : Char)
    (hl : ADDRESS_PUNCTUATIONS.contains letter = false) :
    ∀ prev s' n r, stripZerosMatch letter prev s' = some (n, r) →
      ∀ c ∈ r, ADDRESS_PUNCTUATIONS.contains c = false := by
  intro prev s' n r hmr c hc
  unfold stripZerosMatch at hmr
  split at hmr
  · cases s' with
    | nil => cases hmr
    | cons a rest =>
        dsimp only at hmr
        split at hmr
        · obtain ⟨_, hr⟩ := stripZerosCore_inv _ _ _ _ _ hmr
          subst hr
          rcases List.mem_cons.mp hc with hc | hc
          · subst hc
            exact hl
          · have hxm : c ∈ takeDigits rest := List.mem_of_mem_drop hc
            exact no_punct_of_digit c (by simpa using List.mem_takeWhile_imp hxm)
        · cases hmr
  · cases hmr

theorem punctFree_clean_digit_district (s : Str) (hp : PunctFree s) :
    PunctFree (clean_digit_district s) :=
  punctFree_pySub_digit _ (stripZeros_no_punct 'Q' (by decide)) _
    (punctFree_pySub_digit _ (qdMatch_no_punct _ 'Q' true (by decide)) s hp)

theorem punctFree_clean_digit_ward (s : Str) (hp : PunctFree s) :
    PunctFree (clean_digit_ward s) :=
  punctFree_pySub_digit _ (stripZeros_no_punct 'P' (by decide)) _
    (punctFree_pySub_digit _ (qdMatch_no_punct _ 'P' false (by decide)) _
      (punctFree_pySub_digit _ (qdMatch_no_punct _ 'P' true (by decide)) s hp))

/-- The normalized address contains none of the stripped punctuation marks —
in particular, no comma, period, colon, dash or underscore. -/
theorem clean_full_address_punctFree (s : Str) : PunctFree (clean_full_address s) :=
  punctFree_clean_digit_ward _ (punctFree_clean_digit_district _
    (punctFree_add_space_separator _ (punctFree_remove_punctuation _)))

/-! ## The dangling `Thanh Pho ,` strip -/

theorem endsWithB_iff (s pat : Str) :
    endsWithB s pat = true ↔ pat.length ≤ s.length ∧ s.drop (s.length - pat.length) = pat := by
  unfold endsWithB
  simp

theorem replaceAllAux_suffix (pat : Str) (hne : pat ≠ []) :
    ∀ (fuel : Nat) (s : Str), s.length ≤ fuel →
    pat.length ≤ s.length →
    s.drop (s.length - pat.length) = pat →
    (∀ k, k < s.length - pat.length → (s.drop k).take pat.length ≠ pat) →
    replaceAllAux pat [] fuel s = s.take (s.length - pat.length) := by
  intro fuel
  induction fuel with
  | zero =>
      intro s hf hl _ _
      exfalso
      apply hne
      apply List.length_eq_zero.mp
      omega
  | succ n ih =>
      intro s hf hl hdrop hint
      cases s with
      | nil =>
          exfalso
          apply hne
          apply List.length_eq_zero.mp
          have h0 : (List.length ([] : Str)) = 0 := rfl
          omega
      | cons c rest =>
          have hlc : (c :: rest).length = rest.length + 1 := List.length_cons c rest
          by_cases hlen : (c :: rest).length = pat.length
          · have hsp : c :: rest = pat := by
              have h0 : (c :: rest).length - pat.length = 0 := by omega
              rw [h0, List.drop_zero] at hdrop
              exact hdrop
            unfold replaceAllAux
            rw [if_pos (by rw [hsp, List.take_length])]
            have hdr : (c :: rest).drop pat.length = [] := by
              apply List.drop_eq_nil_of_le
              omega
            rw [hdr]
            have hz : replaceAllAux pat [] n [] = [] := by cases n <;> rfl
            rw [hz]
            have h0 : (c :: rest).length - pat.length = 0 := by omega
            rw [h0, List.take_zero]
            rfl
          · have hpos : 0 < (c :: rest).length - pat.length := by omega
            have hno : (c :: rest).take pat.length ≠ pat := by
              have := hint 0 hpos
              simpa using this
            unfold replaceAllAux
            rw [if_neg hno]
            have heq : (c :: rest).length - pat.length = (rest.length - pat.length) + 1 := by
              omega
            have hrec := ih rest (by omega) (by omega)
              (by
                rw [heq] at hdrop
                simpa using hdrop)
              (by
                intro k hk
                have := hint (k + 1) (by omega)
                simpa using this)
            rw [hrec]
            rw [heq]
            rfl

theorem two_commas_count (s : Str) (i j : Nat) (hij : i < j)
    (hi : s[i]? = some ',') (hj : s[j]? = some ',') : 2 ≤ s.count ',' := by
  have hsplit : s = s.take j ++ s.drop j := (List.take_append_drop j s).symm
  have hmem1 : (',' : Char) ∈ s.take j :=
    List.getElem?_mem (show (s.take j)[i]? = some ',' from by
      rw [List.getElem?_take_of_lt hij]; exact hi)
  have hmem2 : (',' : Char) ∈ s.drop j :=
    List.getElem?_mem (show (s.drop j)[0]? = some ',' from by
      rw [List.getElem?_drop]; simpa using hj)
  have h1 := List.one_le_count_iff.mpr hmem1
  have h2 := List.one_le_count_iff.mpr hmem2
  calc 2 ≤ (s.take j).count ',' + (s.drop j).count ',' := by omega
    _ = s.count ',' := by
        conv_rhs => rw [hsplit]
        rw [List.count_append]

theorem window_comma (s : Str) (k : Nat) (hk : (s.drop k).take thanhPhoFrag.length
    = thanhPhoFrag) : s[k + 10]? = some ',' := by
  have h10 : ((s.drop k).take thanhPhoFrag.length)[10]? = some ',' := by
    rw [hk]
    rfl
  rw [List.getElem?_take_of_lt (by decide), List.getElem?_drop] at h10
  exact h10

/-- Splicing out a segment does not increase the comma count. -/
theorem splice_count_le (a : Str) (li n : Nat) (c : Char) :
    (a.take li ++ a.drop (li + n)).count c ≤ a.count c := by
  rw [List.count_append]
  have h1 : a.drop (li + n) = (a.drop li).drop n := by rw [List.drop_drop]
  calc (a.take li).count c + (a.drop (li + n)).count c
      ≤ (a.take li).count c + (a.drop li).count c := by
        have := ((List.drop_sublist n (a.drop li)).count_le c)
        rw [h1]
        omega
    _ = a.count c := by rw [← List.count_append, List.take_append_drop]

theorem address1_count_comma (dbp : ProvDB) (input : Str) :
    (address1 dbp input).count ',' ≤ 1 := by
  have ha0 : (address0 input).count ',' = 1 := by
    unfold address0
    rw [List.count_append]
    have h0 : (clean_full_address input).count ',' = 0 := by
      apply List.count_eq_zero.mpr
      intro hmem
      have := clean_full_address_punctFree input ',' hmem
      rw [show ADDRESS_PUNCTUATIONS.contains ',' = true from by decide] at this
      cases this
    rw [h0]
    rfl
  unfold address1
  split
  · unfold replace_last_occurrences
    split
    · omega
    · split
      · omega
      · simp only [List.append_nil]
        exact le_trans (splice_count_le _ _ _ ',') (le_of_eq ha0)
  · omega

/-- Claim C9: after the province stage, the dangling fragment `Thanh Pho ,` is
stripped precisely when the address ends with it, and exactly that trailing
fragment is removed (the rest of the address, including any earlier text, is
preserved). -/
theorem claim_C9 (dbp : ProvDB) (input : Str)
    (hf : (provSt dbp input).found ≠ "") :
    address2 dbp input =
      (if endsWithB (address1 dbp input) thanhPhoFrag then
        (address1 dbp input).take ((address1 dbp input).length - thanhPhoFrag.length)
      else address1 dbp input) := by
  unfold address2
  by_cases he : endsWithB (address1 dbp input) thanhPhoFrag = true
  · rw [if_pos he, if_pos he]
    obtain ⟨hlen, hdrop⟩ := (endsWithB_iff _ _).mp he
    unfold pyReplaceAll
    rw [if_neg (by decide)]
    apply replaceAllAux_suffix thanhPhoFrag (by decide) _ _ le_rfl hlen hdrop
    intro k hk hwin
    have hc1 := window_comma _ k hwin
    have hc2 : (address1 dbp input)[(address1 dbp input).length - thanhPhoFrag.length + 10]?
        = some ',' := window_comma _ _ (by rw [hdrop, List.take_length])
    have hcnt := two_commas_count (address1 dbp input) (k + 10)
      ((address1 dbp input).length - thanhPhoFrag.length + 10) (by omega) hc1 hc2
    have := address1_count_comma dbp input
    omega
  · rw [if_neg he, if_neg he]

theorem claim_C9_witness :
    address2 exProvinceB ("X Thanh Pho B".toList) =
      (if endsWithB (address1 exProvinceB ("X Thanh Pho B".toList)) thanhPhoFrag then
        (address1 exProvinceB ("X Thanh Pho B".toList)).take
          ((address1 exProvinceB ("X Thanh Pho B".toList)).length - thanhPhoFrag.length)
      else address1 exProvinceB ("X Thanh Pho B".toList)) :=
  claim_C9 exProvinceB ("X Thanh Pho B".toList) (by decide)

/-! ## No-match behavior -/

theorem rfindI_neg (a w : Str) (h : ∀ i, ¬OccursAt a w i) : rfindI a w = -1 := by
  unfold rfindI
  cases hm : rfindOpt a w with
  | none => rfl
  | some m => exact absurd (rfindOpt_some_spec a w m hm).1 (h m)

theorem last_index_neg (a w : Str) (anchored : Bool) (ending : Char → Bool)
    (h : ∀ i, ¬OccursAt a w i) : last_index_of_regex a w anchored ending = -1 := by
  unfold last_index_of_regex
  split
  · rename_i hcond
    exfalso
    apply h a.length
    unfold OccursAt substrAtB
    rw [hcond.1]
    simp
  · have hfm : ∀ pos, firstMatchFrom a w anchored ending pos = none := by
      intro pos
      apply List.find?_eq_none.mpr
      intro i _
      have hsub : substrAtB w a i = false := by
        cases hx : substrAtB w a i
        · rfl
        · exact absurd hx (h i)
      simp [parseMatchAt, hsub]
    show fiLastAux a w anchored ending (a.length + 1) 0 (-1) = -1
    unfold fiLastAux
    rw [hfm 0]

theorem occursAt_le (a w : Str) (i : Nat) (h : OccursAt a w i) : i ≤ a.length :=
  substrAtB_le_length w a i h

theorem mem_unitWords_db {α : Type} (l : List (String × α)) (f : α → List Str)
    (c : String × Str) (h : c ∈ unitWords (l.map (fun p => (p.1, f p.2)))) :
    ∃ a, (c.1, a) ∈ l ∧ c.2 ∈ f a := by
  unfold unitWords at h
  simp only [List.mem_flatMap, List.mem_map] at h
  obtain ⟨p, ⟨q, hq, rfl⟩, hw⟩ := h
  simp only [List.mem_map] at hw
  obtain ⟨w, hw, rfl⟩ := hw
  exact ⟨q.2, hq, hw⟩

theorem getLast?_eq_getElem?_aux (t : Str) (ht : t ≠ []) :
    t.getLast? = t[t.length - 1]? := by
  rw [List.getLast?_eq_getElem?]

/-- A canonically spaced string never ends in a space. -/
theorem canon_not_last_space (t : Str) (h : Canon t) (hl : t.getLast? = some ' ') : False := by
  have h3 := h.2.2.2
  rw [hl] at h3
  have h4 : isWsChar ' ' = false := h3
  exact absurd h4 (by decide)

/-- The sentinel-terminated normalized address never ends in `Thanh Pho ,`,
because the normalized address never ends in a space. -/
theorem address0_not_endsWith (input : Str) :
    endsWithB (address0 input) thanhPhoFrag = false := by
  cases he : endsWithB (address0 input) thanhPhoFrag
  · rfl
  · exfalso
    obtain ⟨hlen, hdrop⟩ := (endsWithB_iff _ _).mp he
    have hL : (address0 input).length = (clean_full_address input).length + 1 := by
      unfold address0
      rw [List.length_append]
      rfl
    have hfl : thanhPhoFrag.length = 11 := by decide
    rw [hfl] at hlen hdrop
    have h9 : (address0 input)[(address0 input).length - 11 + 9]? = some ' ' := by
      have := congrArg (fun l => l[9]?) hdrop
      simp only [] at this
      rw [List.getElem?_drop] at this
      rw [this]
      rfl
    have hidx : (address0 input).length - 11 + 9 = (clean_full_address input).length - 1 := by
      omega
    rw [hidx] at h9
    have hclen : 1 ≤ (clean_full_address input).length := by omega
    have hin : (address0 input)[(clean_full_address input).length - 1]?
        = (clean_full_address input)[(clean_full_address input).length - 1]? := by
      unfold address0
      rw [List.getElem?_append_left (by omega)]
    rw [hin] at h9
    have hlast : (clean_full_address input).getLast? = some ' ' := by
      rw [getLast?_eq_getElem?_aux _ (by
        intro hno
        rw [hno] at hclen
        simp at hclen)]
      exact h9
    exact canon_not_last_space _ (clean_full_address_canon input) hlast

/-- Claim C7 (amended): on an input in which no alias word of any province,
district or ward occurs (and whose gazetteer has no empty-string unit key),
all three fields are empty and the remainder is the fully normalized input
*with* the appended sentinel comma still attached. -/
theorem claim_C7 (dbp : ProvDB) (dbd : DistDB) (dbw : WardDB) (ending : Char → Bool)
    (input : Str)
    (hP : ∀ p ∈ dbp, ∀ w ∈ p.2.words, ∀ i ≤ (address0 input).length,
      ¬OccursAt (address0 input) w i)
    (hD : ∀ d ∈ dbd, ∀ w ∈ d.2.words, ∀ i ≤ (address0 input).length,
      ¬OccursAt (address0 input) w i)
    (hE : lookup dbp "" = none ∧ lookup dbd "" = none ∧ lookup dbw "" = none) :
    parse_address input dbp dbd dbw ending =
      clean_full_address input ++ (", , , ".toList) ∧
    provinceNameOut dbp dbd ending input = [] ∧
    districtNameOut dbp dbd ending input = [] ∧
    wardNameOut dbp dbd dbw ending input = [] := by
  have hP' : ∀ p ∈ dbp, ∀ w ∈ p.2.words, ∀ i, ¬OccursAt (address0 input) w i := by
    intro p hp w hw i hi
    exact hP p hp w hw i (occursAt_le (address0 input) w i hi) hi
  have hD' : ∀ d ∈ dbd, ∀ w ∈ d.2.words, ∀ i, ¬OccursAt (address0 input) w i := by
    intro d hd w hw i hi
    exact hD d hd w hw i (occursAt_le (address0 input) w i hi) hi
  have hst1 : provSt dbp input = initSt := by
    unfold provSt provinceScan
    rw [scanUnits_eq_scanPairs]
    apply scanPairs_init_of_neg _ _ _ rfl
    intro c hc
    obtain ⟨a, ha, hwa⟩ := mem_unitWords_db dbp (fun p => p.words) c hc
    exact rfindI_neg _ _ (hP' (c.1, a) ha c.2 hwa)
  have ha1 : address1 dbp input = address0 input := by
    unfold address1
    rw [hst1]
    rfl
  have ha2 : address2 dbp input = address0 input := by
    unfold address2
    rw [ha1, address0_not_endsWith]
    simp
  have hst2 : distSt dbp dbd ending input = initSt := by
    unfold distSt
    rw [hst1]
    rw [if_neg (by simp [initSt])]
    unfold districtScanNoProv
    rw [scanUnits_eq_scanPairs]
    apply scanPairs_init_of_neg _ _ _ rfl
    intro c hc
    obtain ⟨a, ha, hwa⟩ := mem_unitWords_db dbd (fun d => d.words) c hc
    rw [ha2]
    exact last_index_neg _ _ _ _ (hD' (c.1, a) ha c.2 hwa)
  have ha3 : address3 dbp dbd ending input = address0 input := by
    unfold address3
    rw [hst2, ha2]
    rfl
  have hpk : provKeyFinal dbp dbd ending input = "" := by
    unfold provKeyFinal
    rw [hst2]
    rw [if_neg (by simp [initSt])]
    rw [hst1]
    rfl
  have hwst : wardSt dbp dbd dbw ending input = initSt := by
    unfold wardSt
    rw [hst2]
    rfl
  have ha4 : address4 dbp dbd dbw ending input = address0 input := by
    unfold address4
    rw [hst2, ha3]
    rw [if_neg (by simp [initSt])]
  have hpn : provinceNameOut dbp dbd ending input = [] := by
    unfold provinceNameOut
    rw [hpk, hE.1]
    rfl
  have hdn : districtNameOut dbp dbd ending input = [] := by
    unfold districtNameOut
    rw [hst2]
    show ((lookup dbd "").map DistrictData.name).getD [] = []
    rw [hE.2.1]
    rfl
  have hwn : wardNameOut dbp dbd dbw ending input = [] := by
    unfold wardNameOut
    rw [hwst]
    show ((lookup dbw "").map WardData.name).getD [] = []
    rw [hE.2.2]
    rfl
  refine ⟨?_, hpn, hdn, hwn⟩
  unfold parse_address
  rw [ha4, hpn, hdn, hwn]
  unfold address0
  simp only [List.append_assoc]
  rw [List.append_right_inj]
  rfl

theorem claim_C7_witness :
    parse_address ("Abc".toList) exProvinceHCM exDistrictQ1 [] SPECIAL_ENDING =
      clean_full_address ("Abc".toList) ++ (", , , ".toList) ∧
    provinceNameOut exProvinceHCM exDistrictQ1 SPECIAL_ENDING ("Abc".toList) = [] ∧
    districtNameOut exProvinceHCM exDistrictQ1 SPECIAL_ENDING ("Abc".toList) = [] ∧
    wardNameOut exProvinceHCM exDistrictQ1 [] SPECIAL_ENDING ("Abc".toList) = [] :=
  claim_C7 exProvinceHCM exDistrictQ1 [] SPECIAL_ENDING ("Abc".toList)
    (by decide) (by decide) (by decide)

/-! ### Claim C8: the abbreviation patterns carry no word-boundary anchors -/

theorem toLower_small (c d : Char) (hd : d.toNat < 97) (h : c.toLower = d) : c = d := by
  rcases char_toLower_or c with he | ⟨h1, h2⟩
  · rw [he] at h; exact h
  · rw [h] at h1; omega

theorem ciPrefixAt_getElem (lit t : Str) (h : ciPrefixAt lit t = true) (i : Nat)
    (hi : i < lit.length) :
    ∃ c, t[i]? = some c ∧ (lit.map Char.toLower)[i]? = some c.toLower := by
  unfold ciPrefixAt at h
  have he : (t.take lit.length).map Char.toLower = lit.map Char.toLower := eq_of_beq h
  have hlen : lit.length ≤ t.length := by
    have hl := congrArg List.length he
    simp only [List.length_map, List.length_take] at hl
    omega
  have hit : i < t.length := lt_of_lt_of_le hi hlen
  have hge := congrArg (fun l => l[i]?) he
  simp only [List.getElem?_map] at hge
  rw [List.getElem?_take_of_lt hi] at hge
  have hsome : t[i]? = some (t.get ⟨i, hit⟩) := by
    rw [List.getElem?_eq_getElem hit]
    rfl
  rw [hsome] at hge
  simp only [Option.map_some'] at hge
  rw [← List.getElem?_map] at hge
  exact ⟨t.get ⟨i, hit⟩, hsome, hge.symm⟩

theorem altsToM_eq_none (alts : List AltPat) (repl : Str) (prev : Option Char) (t : Str)
    (h : ∀ a ∈ alts, ciPrefixAt a.lit t = false) : altsToM alts repl prev t = none := by
  unfold altsToM
  have hf : alts.find? (fun a => altMatchAt a prev t) = none := by
    rw [List.find?_eq_none]
    intro a ha
    unfold altMatchAt
    rw [h a ha]
    simp
  rw [hf]

theorem abbrev_matcher_none (lits : List Str) (repl : Str)
    (hl : ∀ l ∈ lits, ∃ i, i < l.length ∧
      ((l.map Char.toLower)[i]? = some '.' ∨ (l.map Char.toLower)[i]? = some ':'))
    (prev : Option Char) (t : Str)
    (ht : ∀ c ∈ t, c ≠ '.' ∧ c ≠ ':') :
    altsToM (plainAlts lits) repl prev t = none := by
  apply altsToM_eq_none
  intro a ha
  unfold plainAlts at ha
  obtain ⟨l, hlmem, rfl⟩ := List.mem_map.mp ha
  obtain ⟨i, hi, hc⟩ := hl l hlmem
  cases hp : ciPrefixAt l t
  · rfl
  · exfalso
    obtain ⟨c, hct, hcl⟩ := ciPrefixAt_getElem l t hp i hi
    have hmem : c ∈ t := List.getElem?_mem hct
    rcases hc with hd | hd
    · rw [hd] at hcl
      have hcd : c = '.' := toLower_small c '.' (by decide) (Option.some.inj hcl).symm
      exact (ht c hmem).1 hcd
    · rw [hd] at hcl
      have hcd : c = ':' := toLower_small c ':' (by decide) (Option.some.inj hcl).symm
      exact (ht c hmem).2 hcd

theorem pySub_abbrev_id (lits : List Str) (repl : Str)
    (hl : ∀ l ∈ lits, ∃ i, i < l.length ∧
      ((l.map Char.toLower)[i]? = some '.' ∨ (l.map Char.toLower)[i]? = some ':'))
    (s : Str) (hs : ∀ c ∈ s, c ≠ '.' ∧ c ≠ ':') :
    pySub (altsToM (plainAlts lits) repl) s = s := by
  unfold pySub
  apply reSubM_id
  intro prev k
  apply abbrev_matcher_none lits repl hl
  intro c hc
  exact hs c (List.mem_of_mem_drop hc)

theorem reSubM_single (m : Matcher) (x v repl y : Str) (hv : v ≠ [])
    (hx : ∀ prev k, k < x.length → m prev ((x ++ (v ++ y)).drop k) = none)
    (hj : ∀ prev, m prev (v ++ y) = some (v.length, repl))
    (hy : ∀ prev k, m prev (y.drop k) = none)
    (fuel : Nat) (hfuel : (x ++ (v ++ y)).length ≤ fuel) (prev : Option Char) :
    reSubM m fuel prev (x ++ (v ++ y)) = x ++ (repl ++ y) := by
  induction x generalizing fuel prev with
  | nil =>
      simp only [List.nil_append] at hfuel ⊢
      cases v with
      | nil => exact absurd rfl hv
      | cons a v' =>
          cases fuel with
          | zero =>
              exfalso
              simp only [List.cons_append, List.length_cons] at hfuel
              omega
          | succ f =>
              have hj' := hj prev
              simp only [List.cons_append] at hj' ⊢
              unfold reSubM
              rw [hj']
              show repl ++ reSubM m f ((a :: (v' ++ y)).take (a :: v').length).getLast?
                  ((a :: (v' ++ y)).drop (a :: v').length) = repl ++ y
              have hdrop : (a :: (v' ++ y)).drop (a :: v').length = y := by
                rw [← List.cons_append, List.drop_left]
              rw [hdrop]
              rw [reSubM_id m f _ y (fun p k => hy p k)]
  | cons c x' ih =>
      cases fuel with
      | zero =>
          exfalso
          simp only [List.cons_append, List.length_cons] at hfuel
          omega
      | succ f =>
          have h0 := hx prev 0 (by simp)
          simp only [List.drop_zero, List.cons_append] at h0
          simp only [List.cons_append]
          unfold reSubM
          rw [h0]
          have hx' : ∀ prev k, k < x'.length → m prev ((x' ++ (v ++ y)).drop k) = none := by
            intro p k hk
            have := hx p (k + 1) (by simp; omega)
            rwa [List.cons_append, List.drop_succ_cons] at this
          have hfuel' : (x' ++ (v ++ y)).length ≤ f := by
            simp only [List.cons_append, List.length_cons] at hfuel
            omega
          rw [ih hx' f hfuel' (some c)]

theorem no_match_at_junction_left (x y : Str) (hx : ∀ c ∈ x, c ≠ '.' ∧ c ≠ ':')
    (lit : Str) (d : Char) (hd : d = '.' ∨ d = ':') (hil : 2 < lit.length)
    (hl2 : (lit.map Char.toLower)[2]? = some d)
    (k : Nat) (hk : k < x.length) :
    ciPrefixAt lit ((x ++ (("tp.".toList) ++ y)).drop k) = false := by
  cases hp : ciPrefixAt lit ((x ++ (("tp.".toList) ++ y)).drop k)
  · rfl
  · exfalso
    obtain ⟨c, hct, hcl⟩ := ciPrefixAt_getElem lit _ hp 2 hil
    rw [List.getElem?_drop] at hct
    rw [hl2] at hcl
    have hcd : c = d := by
      apply toLower_small c d
      · rcases hd with rfl | rfl <;> decide
      · exact (Option.some.inj hcl).symm
    subst hcd
    have hcase : k + 2 < x.length ∨ k + 2 = x.length ∨ k + 2 = x.length + 1 := by omega
    rcases hcase with h2 | h2 | h2
    · rw [List.getElem?_append_left h2] at hct
      have hm : c ∈ x := List.getElem?_mem hct
      rcases hd with rfl | rfl
      · exact (hx _ hm).1 rfl
      · exact (hx _ hm).2 rfl
    · rw [List.getElem?_append_right (by omega)] at hct
      have hz : k + 2 - x.length = 0 := by omega
      rw [hz] at hct
      have h0 : ((("tp.".toList)) ++ y)[(0 : Nat)]? = some 't' := by
        rw [List.getElem?_append_left (by decide)]
        decide
      rw [h0] at hct
      rcases hd with rfl | rfl <;> simp at hct
    · rw [List.getElem?_append_right (by omega)] at hct
      have hz : k + 2 - x.length = 1 := by omega
      rw [hz] at hct
      have h0 : ((("tp.".toList)) ++ y)[(1 : Nat)]? = some 'p' := by
        rw [List.getElem?_append_left (by decide)]
        decide
      rw [h0] at hct
      rcases hd with rfl | rfl <;> simp at hct

theorem tp_stage (x y : Str) (hx : ∀ c ∈ x, c ≠ '.' ∧ c ≠ ':')
    (hy : ∀ c ∈ y, c ≠ '.' ∧ c ≠ ':') :
    pySub (altsToM (plainAlts [("Tp.".toList), ("Tp:".toList)]) (pyCapitalize ("Tp ".toList)))
      (x ++ (("tp.".toList) ++ y)) = x ++ (("Tp ".toList) ++ y) := by
  have hcap : pyCapitalize ("Tp ".toList) = "Tp ".toList := by decide
  rw [hcap]
  unfold pySub
  refine reSubM_single _ x ("tp.".toList) ("Tp ".toList) y (by decide) ?hx ?hj ?hy _ le_rfl none
  case hx =>
    intro prev k hk
    apply altsToM_eq_none
    intro a ha
    unfold plainAlts at ha
    simp only [List.map_cons, List.map_nil] at ha
    rcases List.mem_cons.mp ha with rfl | ha2
    · exact no_match_at_junction_left x y hx ("Tp.".toList) '.' (Or.inl rfl)
        (by decide) (by decide) k hk
    · rcases List.mem_cons.mp ha2 with rfl | ha3
      · exact no_match_at_junction_left x y hx ("Tp:".toList) ':' (Or.inr rfl)
          (by decide) (by decide) k hk
      · simp at ha3
  case hj =>
    intro prev
    unfold altsToM plainAlts
    simp only [List.map_cons, List.map_nil]
    have hpre : ciPrefixAt ("Tp.".toList) (("tp.".toList) ++ y) = true := by
      unfold ciPrefixAt
      have h3 : ("Tp.".toList).length = ("tp.".toList).length := by decide
      rw [h3, List.take_left]
      decide
    have hm : altMatchAt ⟨("Tp.".toList), false, false⟩ prev (("tp.".toList) ++ y) = true := by
      unfold altMatchAt
      dsimp only
      rw [hpre]
      simp
    have hfind : List.find? (fun a => altMatchAt a prev (("tp.".toList) ++ y))
        [⟨("Tp.".toList), false, false⟩, ⟨("Tp:".toList), false, false⟩]
        = some ⟨("Tp.".toList), false, false⟩ := by
      simp only [List.find?]
      rw [hm]
    rw [hfind]
    decide
  case hy =>
    intro prev k
    apply abbrev_matcher_none
    · intro l hl
      rcases List.mem_cons.mp hl with rfl | hl2
      · exact ⟨2, by decide, Or.inl (by decide)⟩
      · rcases List.mem_cons.mp hl2 with rfl | hl3
        · exact ⟨2, by decide, Or.inr (by decide)⟩
        · simp at hl3
    · intro c hc
      exact hy c (List.mem_of_mem_drop hc)

/-! ### Claim C5: canonical-form identity lemmas and accent stability -/

theorem collapseWsAux_id (fuel : Nat) (t : Str)
    (h1 : ∀ c ∈ t, isWsChar c = true → c = ' ')
    (h2 : List.Chain' SpacedOK t) :
    collapseWsAux fuel t = t := by
  induction fuel generalizing t with
  | zero => rfl
  | succ n ih =>
      cases t with
      | nil => rfl
      | cons c rest =>
          unfold collapseWsAux
          by_cases hws : isWsChar c = true
          · rw [if_pos hws]
            have hc : c = ' ' := h1 c (List.mem_cons_self _ _) hws
            have hdw : rest.dropWhile isWsChar = rest := by
              cases rest with
              | nil => rfl
              | cons d rest2 =>
                  rw [List.dropWhile_cons_of_neg]
                  cases hd : isWsChar d
                  · simp
                  · exfalso
                    have hd2 : d = ' ' :=
                      h1 d (List.mem_cons_of_mem _ (List.mem_cons_self _ _)) hd
                    exact (List.chain'_cons.mp h2).1 ⟨hc, hd2⟩
            rw [hdw, hc]
            rw [ih rest (fun d hd => h1 d (List.mem_cons_of_mem _ hd)) h2.tail]
          · rw [if_neg hws]
            rw [ih rest (fun d hd => h1 d (List.mem_cons_of_mem _ hd)) h2.tail]

theorem pyStrip_id (t : Str) (hh : OptNonWs t.head?) (hl : OptNonWs t.getLast?) :
    pyStrip t = t := by
  unfold pyStrip
  have hdw1 : t.dropWhile isWsChar = t := by
    cases t with
    | nil => rfl
    | cons c rest =>
        rw [List.dropWhile_cons_of_neg]
        have hx : isWsChar c = false := hh
        simp [hx]
  rw [hdw1]
  have hdw2 : t.reverse.dropWhile isWsChar = t.reverse := by
    cases hr : t.reverse with
    | nil => rfl
    | cons c rest =>
        rw [List.dropWhile_cons_of_neg]
        have hc : t.getLast? = some c := by
          rw [← List.head?_reverse, hr]
          rfl
        have hx : isWsChar c = false := by
          rw [hc] at hl
          exact hl
        simp [hx]
  rw [hdw2, List.reverse_reverse]

theorem strip_collapse_id (t : Str) (h : Canon t) : pyStrip (collapseWs t) = t := by
  unfold collapseWs
  rw [collapseWsAux_id _ _ h.1 h.2.1]
  exact pyStrip_id t h.2.2.1 h.2.2.2

theorem remove_spare_space_id (t : Str) (h : Canon t) : remove_spare_space t = t := by
  unfold remove_spare_space
  rw [pyStrip_id t h.2.2.1 h.2.2.2]
  unfold collapseWs
  exact collapseWsAux_id _ _ h.1 h.2.1

theorem safe_of_small (c : Char) (h : c.toNat ≤ 122) : safeChar c = true := by
  unfold safeChar
  have h1 : combiningMark c = false := by
    unfold combiningMark
    simp only [decide_eq_false_iff_not]
    omega
  have h2 : accentSrc.contains c = false := by
    cases hk : accentSrc.contains c
    · rfl
    · exfalso
      have hmem : c ∈ accentSrc := List.mem_of_elem_eq_true hk
      have hbig : ∀ b ∈ accentSrc, 192 ≤ b.toNat := by decide
      have := hbig c hmem
      omega
  rw [h1, h2]
  rfl

theorem safe_toUpper (c : Char) (h : safeChar c = true) : safeChar c.toUpper = true := by
  rcases char_toUpper_or c with he | ⟨ha, hb⟩
  · rw [he]; exact h
  · exact safe_of_small _ (by omega)

theorem safe_toLower (c : Char) (h : safeChar c = true) : safeChar c.toLower = true := by
  rcases char_toLower_or c with he | ⟨ha, hb⟩
  · rw [he]; exact h
  · exact safe_of_small _ (by omega)

theorem safe_of_digit (c : Char) (h : c.isDigit = true) : safeChar c = true := by
  unfold Char.isDigit at h
  simp only [Bool.and_eq_true, decide_eq_true_eq] at h
  have h2 : c.val.toNat ≤ (57 : UInt32).toNat := h.2
  have h3 : (57 : UInt32).toNat = 57 := by decide
  have h4 : c.toNat = c.val.toNat := rfl
  exact safe_of_small c (by omega)

theorem replaceChar_mem (b a : Char) (t : Str) (c : Char) (hc : c ∈ replaceChar b a t) :
    (c ∈ t ∧ c ≠ b) ∨ c = a := by
  unfold replaceChar at hc
  obtain ⟨d, hd, hdc⟩ := List.mem_map.mp hc
  by_cases hdb : d = b
  · subst hdb
    rw [if_pos rfl] at hdc
    exact Or.inr hdc.symm
  · rw [if_neg hdb] at hdc
    subst hdc
    exact Or.inl ⟨hd, hdb⟩

theorem replace_fold_mem (a : Char) (bs : Str) (t : Str) (c : Char)
    (hc : c ∈ bs.foldl (fun u b => replaceChar b a u) t) :
    (c ∈ t ∧ ∀ b ∈ bs, c ≠ b) ∨ c = a := by
  induction bs generalizing t with
  | nil => exact Or.inl ⟨hc, by simp⟩
  | cons b bs ih =>
      simp only [List.foldl_cons] at hc
      rcases ih _ hc with ⟨hmem, hbs⟩ | he
      · rcases replaceChar_mem b a t c hmem with ⟨hmt, hneb⟩ | he2
        · refine Or.inl ⟨hmt, ?_⟩
          intro b2 hb2
          rcases List.mem_cons.mp hb2 with rfl | h2
          · exact hneb
          · exact hbs b2 h2
        · exact Or.inr he2
      · exact Or.inr he

theorem accent_fold_mem (rows : List (Char × Str)) (t : Str) (c : Char)
    (hc : c ∈ rows.foldl (fun t row => row.2.foldl (fun u b => replaceChar b row.1 u) t) t) :
    (c ∈ t ∧ ∀ row ∈ rows, ∀ b ∈ row.2, c ≠ b) ∨ (∃ row ∈ rows, c = row.1) := by
  induction rows generalizing t with
  | nil => exact Or.inl ⟨hc, by simp⟩
  | cons row rest ih =>
      simp only [List.foldl_cons] at hc
      rcases ih _ hc with ⟨hmem, hall⟩ | ⟨r, hr, hcr⟩
      · rcases replace_fold_mem row.1 row.2 t c hmem with ⟨hmt, hbs⟩ | he
        · refine Or.inl ⟨hmt, ?_⟩
          intro r hr b hb
          rcases List.mem_cons.mp hr with rfl | hr2
          · exact hbs b hb
          · exact hall r hr2 b hb
        · exact Or.inr ⟨row, List.mem_cons_self _ _, he⟩
      · exact Or.inr ⟨r, List.mem_cons_of_mem _ hr, hcr⟩

theorem remove_accent_safe (s : Str) : SafeStr (remove_accent s) := by
  intro c hc
  unfold remove_accent at hc
  rcases accent_fold_mem _ _ _ hc with ⟨hmem, hall⟩ | ⟨row, hrow, rfl⟩
  · have hcomb : combiningMark c = false := by
      have := List.of_mem_filter hmem
      simpa using this
    have hcon : accentSrc.contains c = false := by
      cases hk : accentSrc.contains c
      · rfl
      · exfalso
        have hmem2 : c ∈ accentSrc := List.mem_of_elem_eq_true hk
        obtain ⟨row, hr, hcr⟩ := List.mem_flatMap.mp hmem2
        exact hall row hr c hcr rfl
    unfold safeChar
    rw [hcomb, hcon]
    rfl
  · have hrows : ∀ row ∈ accentRows, safeChar row.1 = true := by decide
    exact hrows row hrow

theorem replaceChar_id (b a : Char) (u : Str) (h : b ∉ u) : replaceChar b a u = u := by
  unfold replaceChar
  induction u with
  | nil => rfl
  | cons c cs ih =>
      simp only [List.map_cons]
      rw [if_neg (by rintro rfl; exact h (List.mem_cons_self _ _))]
      rw [ih (fun hm => h (List.mem_cons_of_mem _ hm))]

theorem accent_fold_id (rows : List (Char × Str)) (t : Str)
    (h : ∀ row ∈ rows, ∀ b ∈ row.2, b ∉ t) :
    rows.foldl (fun t row => row.2.foldl (fun u b => replaceChar b row.1 u) t) t = t := by
  induction rows with
  | nil => rfl
  | cons row rest ih =>
      simp only [List.foldl_cons]
      have hrow : row.2.foldl (fun u b => replaceChar b row.1 u) t = t := by
        have hgen : ∀ bs : Str, (∀ b ∈ bs, b ∉ t) →
            bs.foldl (fun u b => replaceChar b row.1 u) t = t := by
          intro bs
          induction bs with
          | nil => intro _; rfl
          | cons b bs ihb =>
              intro hb
              simp only [List.foldl_cons]
              rw [replaceChar_id _ _ _ (hb b (List.mem_cons_self _ _))]
              exact ihb (fun b2 hb2 => hb b2 (List.mem_cons_of_mem _ hb2))
        exact hgen row.2 (h row (List.mem_cons_self _ _))
      rw [hrow]
      exact ih (fun r hr => h r (List.mem_cons_of_mem _ hr))

theorem remove_accent_id_of_safe (t : Str) (h : SafeStr t) : remove_accent t = t := by
  unfold remove_accent
  have hfilter : t.filter (fun c => !combiningMark c) = t := by
    apply List.filter_eq_self.mpr
    intro c hc
    have hs := h c hc
    unfold safeChar at hs
    simp only [Bool.and_eq_true] at hs
    exact hs.1
  rw [hfilter]
  apply accent_fold_id
  intro row hr b hb hmem
  have hs := h b hmem
  unfold safeChar at hs
  simp only [Bool.and_eq_true] at hs
  have hcon : accentSrc.contains b = true := by
    have hbm : b ∈ accentSrc := List.mem_flatMap.mpr ⟨row, hr, hb⟩
    exact List.elem_eq_true_of_mem hbm
  rw [hcon] at hs
  exact absurd hs.2 (by decide)

/-! ### SafeStr is preserved by every normalization stage -/

theorem safe_pySub (m : Matcher)
    (hrep : ∀ prev s' n r, m prev s' = some (n, r) → ∀ c ∈ r, safeChar c = true)
    (s : Str) (hs : SafeStr s) : SafeStr (pySub m s) := by
  intro c hc
  exact reSubM_all m (fun c => safeChar c = true) s.length none s hs
    (fun prev s' n r _ hmr => hrep prev s' n r hmr) c hc

theorem qdMatch_safe (heads : List Str) (outHead : Char) (allowWs : Bool)
    (hoh : safeChar outHead = true) :
    ∀ prev s' n r, qdMatch heads outHead allowWs prev s' = some (n, r) →
      ∀ c ∈ r, safeChar c = true := by
  intro prev s' n r hmr c hc
  unfold qdMatch at hmr
  split at hmr
  · obtain ⟨h, _, hsome⟩ := List.exists_of_findSome?_eq_some hmr
    unfold qdTry at hsome
    split at hsome
    · obtain ⟨_, _, hr⟩ := qdCore_inv _ _ _ _ _ _ hsome
      subst hr
      rcases List.mem_cons.mp hc with hc | hc
      · subst hc
        exact hoh
      · exact safe_of_digit c (by simpa using List.mem_takeWhile_imp hc)
    · cases hsome
  · cases hmr

theorem stripZeros_safe (letter : Char) (hl : safeChar letter = true) :
    ∀ prev s' n r, stripZerosMatch letter prev s' = some (n, r) →
      ∀ c ∈ r, safeChar c = true := by
  intro prev s' n r hmr c hc
  unfold stripZerosMatch at hmr
  split at hmr
  · cases s' with
    | nil => cases hmr
    | cons a rest =>
        dsimp only at hmr
        split at hmr
        · obtain ⟨_, hr⟩ := stripZerosCore_inv _ _ _ _ _ hmr
          subst hr
          rcases List.mem_cons.mp hc with hc | hc
          · subst hc
            exact hl
          · have hxm : c ∈ takeDigits rest := List.mem_of_mem_drop hc
            exact safe_of_digit c (by simpa using List.mem_takeWhile_imp hxm)
        · cases hmr
  · cases hmr

theorem safe_clean_digit_district (s : Str) (h : SafeStr s) :
    SafeStr (clean_digit_district s) :=
  safe_pySub _ (stripZeros_safe 'Q' (by decide)) _
    (safe_pySub _ (qdMatch_safe _ 'Q' true (by decide)) s h)

theorem safe_clean_digit_ward (s : Str) (h : SafeStr s) :
    SafeStr (clean_digit_ward s) :=
  safe_pySub _ (stripZeros_safe 'P' (by decide)) _
    (safe_pySub _ (qdMatch_safe _ 'P' false (by decide)) _
      (safe_pySub _ (qdMatch_safe _ 'P' true (by decide)) s h))

theorem altsToM_repl (alts : List AltPat) (repl : Str) (prev : Option Char) (s' : Str)
    (n : Nat) (r : Str) (h : altsToM alts repl prev s' = some (n, r)) : r = repl := by
  unfold altsToM at h
  cases hf : alts.find? (fun a => altMatchAt a prev s') with
  | none => rw [hf] at h; cases h
  | some a =>
      rw [hf] at h
      cases h
      rfl

theorem safe_altsToM_fold (dict : List (Str × List Str)) (f : Str × List Str → List AltPat)
    (g : Str × List Str → Str)
    (hg : ∀ kv ∈ dict, ∀ c ∈ g kv, safeChar c = true) (s : Str) (hs : SafeStr s) :
    SafeStr (dict.foldl (fun t kv => pySub (altsToM (f kv) (g kv)) t) s) := by
  induction dict generalizing s with
  | nil => exact hs
  | cons kv rest ih =>
      simp only [List.foldl_cons]
      apply ih
      · intro kv2 h2
        exact hg kv2 (List.mem_cons_of_mem _ h2)
      · apply safe_pySub
        · intro prev s' n r hmr c hc
          rw [altsToM_repl _ _ _ _ _ _ hmr] at hc
          exact hg kv (List.mem_cons_self _ _) c hc
        · exact hs

theorem safe_clean_abbrev (s : Str) (h : SafeStr s) :
    SafeStr (clean_abbrev_address s DICT_NORM_ABBREV) := by
  intro c hc
  unfold clean_abbrev_address at hc
  rcases collapseWsAux_mem _ _ _ (pyStrip_subset _ _ hc) with h2 | h2
  · exact safe_altsToM_fold DICT_NORM_ABBREV (fun kv => plainAlts kv.2)
      (fun kv => pyCapitalize kv.1) (by decide) s h c h2
  · subst h2
    exact safe_of_small _ (by decide)

theorem safe_clean_dash (s : Str) (h : SafeStr s) :
    SafeStr (clean_dash_address s DICT_NORM_CITY_DASH) := by
  intro c hc
  unfold clean_dash_address at hc
  exact safe_altsToM_fold DICT_NORM_CITY_DASH (fun kv => dashAlts kv.2)
    (fun kv => kv.1) (by decide) s h c hc

theorem safe_remove_spare_space (s : Str) (h : SafeStr s) :
    SafeStr (remove_spare_space s) := by
  intro c hc
  rcases remove_spare_space_mem s c hc with h2 | h2
  · exact h c h2
  · subst h2
    exact safe_of_small _ (by decide)

theorem safe_remove_punctuation (s : Str) (h : SafeStr s) :
    SafeStr (remove_punctuation s ADDRESS_PUNCTUATIONS) := by
  intro c hc
  unfold remove_punctuation at hc
  rw [if_neg (by simp [ADDRESS_PUNCTUATIONS])] at hc
  rcases remove_spare_space_mem _ _ hc with h2 | h2
  · exact h c (List.mem_of_mem_filter h2)
  · subst h2
    exact safe_of_small _ (by decide)

theorem commaMatch_repl (prev : Option Char) (s' : Str) (n : Nat) (r : Str)
    (h : commaMatch prev s' = some (n, r)) : r = (", ".toList) := by
  unfold commaMatch at h
  simp only [] at h
  split at h
  · split at h
    · cases h
      rfl
    · cases h
  · cases h

theorem dotDashMatch_repl (prev : Option Char) (s' : Str) (n : Nat) (r : Str)
    (h : dotDashMatch prev s' = some (n, r)) : r = [' '] := by
  unfold dotDashMatch at h
  split at h
  · split at h
    · cases h
      rfl
    · cases h
  · cases h

theorem safe_init_cap_words (x : Str) (h : SafeStr x) : SafeStr (init_cap_words x) := by
  intro c hc
  rcases init_cap_words_mem x c hc with h2 | ⟨d, hd, hdu⟩
  · subst h2
    exact safe_of_small _ (by decide)
  · rcases hdu with rfl | rfl
    · exact safe_toUpper d (h d hd)
    · exact safe_toLower d (h d hd)

theorem safe_add_space_separator (s : Str) (h : SafeStr s) :
    SafeStr (add_space_separator s) := by
  have h1 : SafeStr (pySub commaMatch s) := by
    apply safe_pySub
    · intro prev s' n r hm c hcr
      rw [commaMatch_repl prev s' n r hm] at hcr
      have he : (", ".toList) = [',', ' '] := rfl
      rw [he] at hcr
      have : c = ',' ∨ c = ' ' := by simpa using hcr
      rcases this with rfl | rfl <;> exact safe_of_small _ (by decide)
    · exact h
  have h2 : SafeStr (pySub dotDashMatch (pySub commaMatch s)) := by
    apply safe_pySub
    · intro prev s' n r hm c hcr
      rw [dotDashMatch_repl prev s' n r hm] at hcr
      have : c = ' ' := by simpa using hcr
      subst this
      exact safe_of_small _ (by decide)
    · exact h1
  intro c hc
  rcases init_cap_words_mem (pyStrip (collapseWs (pySub dotDashMatch (pySub commaMatch s))))
      c hc with h3 | ⟨d, hd, hdu⟩
  · subst h3
    exact safe_of_small _ (by decide)
  · have hds : safeChar d = true := by
      rcases collapseWsAux_mem _ _ _ (pyStrip_subset _ _ hd) with h4 | h4
      · exact h2 d h4
      · subst h4
        exact safe_of_small _ (by decide)
    rcases hdu with rfl | rfl
    · exact safe_toUpper d hds
    · exact safe_toLower d hds

/-- The fully normalized address contains no combining mark and no source
character of the accent table: `remove_accent` leaves it unchanged. -/
theorem clean_full_address_safe (s : Str) : SafeStr (clean_full_address s) :=
  safe_clean_digit_ward _ (safe_clean_digit_district _ (safe_add_space_separator _
    (safe_remove_punctuation _ (safe_clean_dash _ (safe_clean_digit_ward _
      (safe_clean_digit_district _ (safe_remove_spare_space _ (safe_clean_abbrev _
        (remove_accent_safe (init_cap_words s))))))))))

/-! ### Stage-identity lemmas on canonical punctuation-free strings -/

theorem punctFree_init_cap_words (t : Str) (hp : PunctFree t) :
    PunctFree (init_cap_words t) := by
  intro c hc
  rcases init_cap_words_mem t c hc with h2 | ⟨d, hd, hdu⟩
  · subst h2
    decide
  · rcases hdu with rfl | rfl
    · exact no_punct_toUpper d (hp d hd)
    · exact no_punct_toLower d (hp d hd)

theorem clean_abbrev_id (t : Str) (hc : Canon t)
    (hdot : ('.' : Char) ∉ t) (hcolon : (':' : Char) ∉ t) :
    clean_abbrev_address t DICT_NORM_ABBREV = t := by
  have hne : ∀ c ∈ t, c ≠ '.' ∧ c ≠ ':' := by
    intro c hm
    constructor
    · intro h
      exact hdot (h ▸ hm)
    · intro h
      exact hcolon (h ▸ hm)
  have hTp : ∀ l ∈ [("Tp.".toList), ("Tp:".toList)], ∃ i, i < l.length ∧
      ((l.map Char.toLower)[i]? = some '.' ∨ (l.map Char.toLower)[i]? = some ':') := by
    intro l hl
    rcases List.mem_cons.mp hl with rfl | hl2
    · exact ⟨2, by decide, Or.inl (by decide)⟩
    · rcases List.mem_cons.mp hl2 with rfl | hl3
      · exact ⟨2, by decide, Or.inr (by decide)⟩
      · simp at hl3
  have hTt : ∀ l ∈ [("Tt.".toList), ("Tt:".toList)], ∃ i, i < l.length ∧
      ((l.map Char.toLower)[i]? = some '.' ∨ (l.map Char.toLower)[i]? = some ':') := by
    intro l hl
    rcases List.mem_cons.mp hl with rfl | hl2
    · exact ⟨2, by decide, Or.inl (by decide)⟩
    · rcases List.mem_cons.mp hl2 with rfl | hl3
      · exact ⟨2, by decide, Or.inr (by decide)⟩
      · simp at hl3
  have hQ : ∀ l ∈ [("Q.".toList), ("Q:".toList)], ∃ i, i < l.length ∧
      ((l.map Char.toLower)[i]? = some '.' ∨ (l.map Char.toLower)[i]? = some ':') := by
    intro l hl
    rcases List.mem_cons.mp hl with rfl | hl2
    · exact ⟨1, by decide, Or.inl (by decide)⟩
    · rcases List.mem_cons.mp hl2 with rfl | hl3
      · exact ⟨1, by decide, Or.inr (by decide)⟩
      · simp at hl3
  have hH : ∀ l ∈ [("H.".toList), ("H:".toList)], ∃ i, i < l.length ∧
      ((l.map Char.toLower)[i]? = some '.' ∨ (l.map Char.toLower)[i]? = some ':') := by
    intro l hl
    rcases List.mem_cons.mp hl with rfl | hl2
    · exact ⟨1, by decide, Or.inl (by decide)⟩
    · rcases List.mem_cons.mp hl2 with rfl | hl3
      · exact ⟨1, by decide, Or.inr (by decide)⟩
      · simp at hl3
  have hX : ∀ l ∈ [("X.".toList), ("X:".toList)], ∃ i, i < l.length ∧
      ((l.map Char.toLower)[i]? = some '.' ∨ (l.map Char.toLower)[i]? = some ':') := by
    intro l hl
    rcases List.mem_cons.mp hl with rfl | hl2
    · exact ⟨1, by decide, Or.inl (by decide)⟩
    · rcases List.mem_cons.mp hl2 with rfl | hl3
      · exact ⟨1, by decide, Or.inr (by decide)⟩
      · simp at hl3
  have hPp : ∀ l ∈ [("P.".toList), ("P:".toList)], ∃ i, i < l.length ∧
      ((l.map Char.toLower)[i]? = some '.' ∨ (l.map Char.toLower)[i]? = some ':') := by
    intro l hl
    rcases List.mem_cons.mp hl with rfl | hl2
    · exact ⟨1, by decide, Or.inl (by decide)⟩
    · rcases List.mem_cons.mp hl2 with rfl | hl3
      · exact ⟨1, by decide, Or.inr (by decide)⟩
      · simp at hl3
  unfold clean_abbrev_address DICT_NORM_ABBREV
  simp only [List.foldl_cons, List.foldl_nil]
  rw [pySub_abbrev_id _ _ hTp _ hne]
  rw [pySub_abbrev_id _ _ hTt _ hne]
  rw [pySub_abbrev_id _ _ hQ _ hne]
  rw [pySub_abbrev_id _ _ hH _ hne]
  rw [pySub_abbrev_id _ _ hX _ hne]
  rw [pySub_abbrev_id _ _ hPp _ hne]
  exact strip_collapse_id t hc

theorem remove_punctuation_id (t : Str) (hc : Canon t) (hp : PunctFree t) :
    remove_punctuation t ADDRESS_PUNCTUATIONS = t := by
  unfold remove_punctuation
  rw [if_neg (by simp [ADDRESS_PUNCTUATIONS])]
  have hfil : t.filter (fun c => !ADDRESS_PUNCTUATIONS.contains c) = t := by
    apply List.filter_eq_self.mpr
    intro c hm
    rw [hp c hm]
    rfl
  rw [hfil]
  exact remove_spare_space_id t hc

theorem add_space_separator_eq (t : Str) (hc : Canon t) (hp : PunctFree t) :
    add_space_separator t = init_cap_words t := by
  have e1 : pySub commaMatch t = t := by
    apply reSubM_id
    intro prev k
    apply commaMatch_none
    intro hmem
    exact punctFree_mem_neg t hp ',' (by decide) (List.mem_of_mem_drop hmem)
  have e2 : pySub dotDashMatch t = t := by
    apply reSubM_id
    intro prev k
    apply dotDashMatch_none
    · intro hmem
      exact punctFree_mem_neg t hp '.' (by decide) (List.mem_of_mem_drop hmem)
    · intro hmem
      exact punctFree_mem_neg t hp '_' (by decide) (List.mem_of_mem_drop hmem)
    · intro hmem
      exact punctFree_mem_neg t hp '-' (by decide) (List.mem_of_mem_drop hmem)
  show init_cap_words (pyStrip (collapseWs (pySub dotDashMatch (pySub commaMatch t)))) =
    init_cap_words t
  rw [e1, e2, strip_collapse_id t hc]

/-! ## Claims -/

/-- Claim C1 (amended): in each extraction loop of `parse_address`, the winning
alias maximizes the stage's last-occurrence index over all candidate aliases
(the index being `str.rfind` at the province stage, and the start of the last
non-overlapping left-to-right regex match at the district and ward stages), and
among aliases attaining that index the winner's length is maximal, so a
strictly longer alias at the same index always wins. -/
theorem claim_C1_amended (idx : Str → Int) (units : List (String × List Str))
    (u : String) (w : Str) (i : Int)
    (h : scanUnits idx units initSt = ⟨u, w, i⟩) (hi : -1 < i) :
    (u, w) ∈ unitWords units ∧ i = idx w ∧
      (∀ c ∈ unitWords units, idx c.2 ≤ i) ∧
      (∀ c ∈ unitWords units, idx c.2 = i → c.2.length ≤ w.length) := by
  rw [scanUnits_eq_scanPairs] at h
  rcases scanPairs_mem idx (unitWords units) initSt with hmem | ⟨c, hc, hmem⟩
  · rw [h] at hmem
    have : i = (-1 : Int) := congrArg ScanSt.largest hmem
    omega
  · rw [h] at hmem
    obtain ⟨hu, hw, hil⟩ : u = c.1 ∧ w = c.2 ∧ i = idx c.2 := by
      refine ⟨congrArg ScanSt.found hmem, congrArg ScanSt.choose hmem,
        congrArg ScanSt.largest hmem⟩
    subst hu; subst hw
    refine ⟨hc, hil, ?_, ?_⟩
    · intro c' hc'
      have := scanPairs_largest_ge_idx idx (unitWords units) initSt c' hc'
      rw [h] at this
      exact this
    · intro c' hc' hce
      have := scanPairs_tie idx (unitWords units) initSt c' hc'
        (by rw [h]; exact hce) (by rw [h]; exact hi)
      rw [h] at this
      exact this

/-- Claim C1, counterexample to the claim as stated: with districts `D1`
(alias `ana`) and `D2` (alias `nana`) and the address `Banana`, the winner is
`D2` with last-scan index 2, although the alias `ana` of candidate `D1` has its
rightmost occurrence at the strictly greater index 3 (the occurrences of `ana`
overlap, so the last non-overlapping match starts at 1, not 3). -/
theorem claim_C1_counterexample :
    distSt [] exDistrictsOverlap SPECIAL_ENDING ("Banana".toList) =
      ⟨"D2", ("nana".toList), 2⟩ ∧
    ("ana".toList) ∈ ((lookup exDistrictsOverlap "D1").getD emptyDistrict).words ∧
    rfindI (address2 [] ("Banana".toList)) ("ana".toList) = 3 ∧
    rfindI (address2 [] ("Banana".toList)) ("nana".toList) = 2 ∧
    ((2 : Int) < 3) := by
  exact ⟨by decide, by decide, by decide, by decide, by decide⟩

theorem claim_C1_witness :
    ("P1", ("Px".toList)) ∈ unitWords [("P1", [("Px".toList)])] ∧
    (0 : Int) = rfindI ("Px,".toList) ("Px".toList) ∧
    (∀ c ∈ unitWords [("P1", [("Px".toList)])],
        rfindI ("Px,".toList) c.2 ≤ (0 : Int)) ∧
    (∀ c ∈ unitWords [("P1", [("Px".toList)])],
        rfindI ("Px,".toList) c.2 = (0 : Int) → c.2.length ≤ ("Px".toList).length) :=
  claim_C1_amended (fun w => rfindI ("Px,".toList) w) [("P1", [("Px".toList)])]
    "P1" ("Px".toList) 0 (by decide) (by decide)

/-- Claim C2: once a province is resolved, the district stage only scans that
province's district list: any resolved district key belongs to that list, and
if no alias of a district of that province matches, the district result is the
empty key — there is no fallback to the unconstrained all-districts scan. -/
theorem claim_C2 (dbp : ProvDB) (dbd : DistDB) (ending : Char → Bool) (input : Str)
    (hp : (provSt dbp input).found ≠ "") :
    ((distSt dbp dbd ending input).found = "" ∨
      (distSt dbp dbd ending input).found ∈
        ((lookup dbp (provSt dbp input).found).getD emptyProvince).district) ∧
    ((∀ dk ∈ ((lookup dbp (provSt dbp input).found).getD emptyProvince).district,
        ∀ w ∈ ((lookup dbd dk).getD emptyDistrict).words,
          last_index_of_regex (address2 dbp input) w true ending = -1) →
      (distSt dbp dbd ending input).found = "") := by
  have hms : distSt dbp dbd ending input =
      districtScanWithProv dbp dbd ending (address2 dbp input) (provSt dbp input).found := by
    unfold distSt
    rw [if_pos hp]
  constructor
  · rw [hms]
    unfold districtScanWithProv
    rw [scanUnits_eq_scanPairs]
    rcases scanPairs_mem (fun w => last_index_of_regex (address2 dbp input) w true ending)
        (unitWords (districtCandidates dbp dbd (provSt dbp input).found)) initSt with
      hmem | ⟨c, hc, hmem⟩
    · left
      rw [hmem]
      rfl
    · right
      rw [hmem]
      unfold districtCandidates at hc
      exact (mem_unitWords_map hc).1
  · intro hall
    rw [hms]
    unfold districtScanWithProv
    rw [scanUnits_eq_scanPairs]
    rw [scanPairs_init_of_neg _ _ _ rfl ?_]
    · rfl
    · intro c hc
      unfold districtCandidates at hc
      obtain ⟨h1, h2⟩ := mem_unitWords_map hc
      exact hall c.1 h1 c.2 h2

theorem claim_C2_witness :
    (((distSt exProvinceTwoDist exDistrictsTwo SPECIAL_ENDING ("Px Aa B".toList)).found = "" ∨
      (distSt exProvinceTwoDist exDistrictsTwo SPECIAL_ENDING ("Px Aa B".toList)).found ∈
        ((lookup exProvinceTwoDist
          (provSt exProvinceTwoDist ("Px Aa B".toList)).found).getD emptyProvince).district) ∧
    ((∀ dk ∈ ((lookup exProvinceTwoDist
          (provSt exProvinceTwoDist ("Px Aa B".toList)).found).getD emptyProvince).district,
        ∀ w ∈ ((lookup exDistrictsTwo dk).getD emptyDistrict).words,
          last_index_of_regex (address2 exProvinceTwoDist ("Px Aa B".toList)) w true
            SPECIAL_ENDING = -1) →
      (distSt exProvinceTwoDist exDistrictsTwo SPECIAL_ENDING ("Px Aa B".toList)).found = "")) :=
  claim_C2 exProvinceTwoDist exDistrictsTwo SPECIAL_ENDING ("Px Aa B".toList) (by decide)

/-- Claim C3: if stage 1 resolves no province but stage 2 resolves a district,
the output province name is the canonical name of the (unique, per the
parent-link invariant) province whose `id` equals the district's registered
`province` field. -/
theorem claim_C3 (dbp : ProvDB) (dbd : DistDB) (ending : Char → Bool) (input : Str)
    (k : String) (pv : ProvinceData)
    (h1 : (provSt dbp input).found = "")
    (h2 : (distSt dbp dbd ending input).found ≠ "")
    (h3 : dbp.find? (fun kv => kv.2.id ==
        ((lookup dbd (distSt dbp dbd ending input).found).getD emptyDistrict).province) =
      some (k, pv))
    (h4 : lookup dbp k = some pv) :
    provinceNameOut dbp dbd ending input = pv.name := by
  unfold provinceNameOut provKeyFinal
  rw [if_pos ⟨h1, h2⟩, h3]
  simp [h4]

theorem claim_C3_witness :
    provinceNameOut exProvinceHCM exDistrictQ1 SPECIAL_ENDING ("45 Le Loi, Q1".toList) =
      ("Ho Chi Minh City".toList) :=
  claim_C3 exProvinceHCM exDistrictQ1 SPECIAL_ENDING ("45 Le Loi, Q1".toList)
    "HCM" ⟨7, ("Ho Chi Minh City".toList), [("Zzz".toList)], ["Q1"]⟩
    (by decide) (by decide) (by decide) (by decide)

/-- Claim C4: when the winning province alias occurs (here: more than once) in
the address, only the occurrence starting at the greatest index is removed;
the address outside that single occurrence is preserved unchanged. -/
theorem claim_C4 (dbp : ProvDB) (input : Str) (i j : Nat)
    (hf : (provSt dbp input).found ≠ "")
    (hi : OccursAt (address0 input) (provSt dbp input).choose i)
    (hj : OccursAt (address0 input) (provSt dbp input).choose j)
    (hij : i ≠ j) :
    ∃ m, OccursAt (address0 input) (provSt dbp input).choose m ∧
      (∀ k, OccursAt (address0 input) (provSt dbp input).choose k → k ≤ m) ∧
      address1 dbp input =
        (address0 input).take m ++
          (address0 input).drop (m + (provSt dbp input).choose.length) := by
  unfold address1
  rw [if_pos hf]
  exact replace_last_spec _ _ i hi

theorem claim_C4_witness :
    ∃ m, OccursAt (address0 ("Gox Go".toList)) (provSt exProvinceGo ("Gox Go".toList)).choose m ∧
      (∀ k, OccursAt (address0 ("Gox Go".toList))
          (provSt exProvinceGo ("Gox Go".toList)).choose k → k ≤ m) ∧
      address1 exProvinceGo ("Gox Go".toList) =
        (address0 ("Gox Go".toList)).take m ++
          (address0 ("Gox Go".toList)).drop
            (m + (provSt exProvinceGo ("Gox Go".toList)).choose.length) :=
  claim_C4 exProvinceGo ("Gox Go".toList) 0 4 (by decide) (by decide) (by decide) (by decide)

/-- Claim C6: `parse_address` is deterministic — equal input strings and equal
gazetteer mappings (same contents in the same iteration order) yield identical
output strings. -/
theorem claim_C6 (i1 i2 : Str) (p1 p2 : ProvDB) (d1 d2 : DistDB) (w1 w2 : WardDB)
    (e1 e2 : Char → Bool) (hi : i1 = i2) (hp : p1 = p2) (hd : d1 = d2) (hw : w1 = w2)
    (he : e1 = e2) :
    parse_address i1 p1 d1 w1 e1 = parse_address i2 p2 d2 w2 e2 := by
  subst hi; subst hp; subst hd; subst hw; subst he
  rfl

theorem claim_C6_witness :
    parse_address ("a".toList) [] [] [] SPECIAL_ENDING =
      parse_address ("a".toList) [] [] [] SPECIAL_ENDING :=
  claim_C6 ("a".toList) ("a".toList) [] [] [] [] [] [] SPECIAL_ENDING SPECIAL_ENDING
    rfl rfl rfl rfl rfl

/-- Claim C7, counterexample to the claim as stated: on an address matching no
alias at all, the three fields are empty but the remainder still carries the
appended sentinel comma — the output is `Abc, , , `, not `Abc , , `. -/
theorem claim_C7_counterexample :
    parse_address ("Abc".toList) [] [] [] SPECIAL_ENDING = ("Abc, , , ".toList) ∧
    clean_full_address ("Abc".toList) = ("Abc".toList) ∧
    ("Abc, , , ".toList) ≠ ("Abc".toList) ++ (" , , ".toList) :=
  ⟨by decide, by decide, by decide⟩

/-- Claim C8 (amended): abbreviation expansion is purely textual, with no
word-boundary anchors: every case-insensitive occurrence of a dictionary
variant is replaced by the capitalized canonical form, even when it occurs
inside a larger token.  For any `x`, `y` free of `'.'` and `':'`, the variant
`tp.` buried in `x ++ "tp." ++ y` is expanded, yielding the whitespace-collapsed
and stripped `x ++ "Tp " ++ y`. -/
theorem claim_C8 (x y : Str) (hx : ∀ c ∈ x, c ≠ '.' ∧ c ≠ ':')
    (hy : ∀ c ∈ y, c ≠ '.' ∧ c ≠ ':') :
    clean_abbrev_address (x ++ (("tp.".toList) ++ y)) DICT_NORM_ABBREV =
      pyStrip (collapseWs (x ++ (("Tp ".toList) ++ y))) := by
  have hs' : ∀ c ∈ x ++ (("Tp ".toList) ++ y), c ≠ '.' ∧ c ≠ ':' := by
    intro c hc
    rcases List.mem_append.mp hc with hcx | hc2
    · exact hx c hcx
    · rcases List.mem_append.mp hc2 with hcm | hcy
      · have hc3 : c = 'T' ∨ c = 'p' ∨ c = ' ' := by simpa using hcm
        rcases hc3 with rfl | rfl | rfl <;> exact ⟨by decide, by decide⟩
      · exact hy c hcy
  have hTt : ∀ l ∈ [("Tt.".toList), ("Tt:".toList)], ∃ i, i < l.length ∧
      ((l.map Char.toLower)[i]? = some '.' ∨ (l.map Char.toLower)[i]? = some ':') := by
    intro l hl
    rcases List.mem_cons.mp hl with rfl | hl2
    · exact ⟨2, by decide, Or.inl (by decide)⟩
    · rcases List.mem_cons.mp hl2 with rfl | hl3
      · exact ⟨2, by decide, Or.inr (by decide)⟩
      · simp at hl3
  have hQ : ∀ l ∈ [("Q.".toList), ("Q:".toList)], ∃ i, i < l.length ∧
      ((l.map Char.toLower)[i]? = some '.' ∨ (l.map Char.toLower)[i]? = some ':') := by
    intro l hl
    rcases List.mem_cons.mp hl with rfl | hl2
    · exact ⟨1, by decide, Or.inl (by decide)⟩
    · rcases List.mem_cons.mp hl2 with rfl | hl3
      · exact ⟨1, by decide, Or.inr (by decide)⟩
      · simp at hl3
  have hH : ∀ l ∈ [("H.".toList), ("H:".toList)], ∃ i, i < l.length ∧
      ((l.map Char.toLower)[i]? = some '.' ∨ (l.map Char.toLower)[i]? = some ':') := by
    intro l hl
    rcases List.mem_cons.mp hl with rfl | hl2
    · exact ⟨1, by decide, Or.inl (by decide)⟩
    · rcases List.mem_cons.mp hl2 with rfl | hl3
      · exact ⟨1, by decide, Or.inr (by decide)⟩
      · simp at hl3
  have hX : ∀ l ∈ [("X.".toList), ("X:".toList)], ∃ i, i < l.length ∧
      ((l.map Char.toLower)[i]? = some '.' ∨ (l.map Char.toLower)[i]? = some ':') := by
    intro l hl
    rcases List.mem_cons.mp hl with rfl | hl2
    · exact ⟨1, by decide, Or.inl (by decide)⟩
    · rcases List.mem_cons.mp hl2 with rfl | hl3
      · exact ⟨1, by decide, Or.inr (by decide)⟩
      · simp at hl3
  have hP : ∀ l ∈ [("P.".toList), ("P:".toList)], ∃ i, i < l.length ∧
      ((l.map Char.toLower)[i]? = some '.' ∨ (l.map Char.toLower)[i]? = some ':') := by
    intro l hl
    rcases List.mem_cons.mp hl with rfl | hl2
    · exact ⟨1, by decide, Or.inl (by decide)⟩
    · rcases List.mem_cons.mp hl2 with rfl | hl3
      · exact ⟨1, by decide, Or.inr (by decide)⟩
      · simp at hl3
  unfold clean_abbrev_address DICT_NORM_ABBREV
  simp only [List.foldl_cons, List.foldl_nil]
  rw [tp_stage x y hx hy]
  rw [pySub_abbrev_id _ _ hTt _ hs']
  rw [pySub_abbrev_id _ _ hQ _ hs']
  rw [pySub_abbrev_id _ _ hH _ hs']
  rw [pySub_abbrev_id _ _ hX _ hs']
  rw [pySub_abbrev_id _ _ hP _ hs']

/-- Claim C8 witness: instantiating the amended theorem at `x = "A"`,
`y = "x"` reproduces the in-token expansion `Atp.x ↦ ATp x`. -/
theorem claim_C8_witness :
    clean_abbrev_address (("A".toList) ++ (("tp.".toList) ++ ("x".toList))) DICT_NORM_ABBREV =
      pyStrip (collapseWs (("A".toList) ++ (("Tp ".toList) ++ ("x".toList)))) :=
  claim_C8 ("A".toList) ("x".toList) (by decide) (by decide)

/-- Claim C8, counterexample to the claim as stated: the abbreviation patterns
carry no word-boundary anchors, so a variant occurring as a proper substring
inside a larger token is replaced after all: `Atp.x` becomes `ATp x`. -/
theorem claim_C8_counterexample :
    clean_abbrev_address ("Atp.x".toList) DICT_NORM_ABBREV = ("ATp x".toList) ∧
    ("ATp x".toList) ≠ ("Atp.x".toList) :=
  ⟨by decide, by decide⟩


/-- Claim C5 (amended): the normalizer is not idempotent in general, but it is
idempotent on every input whose normal form is stable under the two
re-run-sensitive passes — the dash-synonym substitution and re-capitalization
followed by the district/ward digit rules (a sufficient condition).  Under
those two stability hypotheses every remaining stage acts as the identity on
the canonical, punctuation-free, accent-free normal form. -/
theorem claim_C5 (s : Str)
    (H1 : clean_dash_address (clean_full_address s) DICT_NORM_CITY_DASH =
      clean_full_address s)
    (H2 : clean_digit_ward (clean_digit_district (init_cap_words (clean_full_address s))) =
      clean_full_address s) :
    clean_full_address (clean_full_address s) = clean_full_address s := by
  have hcanon := clean_full_address_canon s
  have hpf := clean_full_address_punctFree s
  have hsafe := clean_full_address_safe s
  have hwcanon : Canon (init_cap_words (clean_full_address s)) := init_cap_words_canon _
  have hwpf : PunctFree (init_cap_words (clean_full_address s)) :=
    punctFree_init_cap_words _ hpf
  have hwsafe : SafeStr (init_cap_words (clean_full_address s)) :=
    safe_init_cap_words _ hsafe
  have hdot : ('.' : Char) ∉ init_cap_words (clean_full_address s) := by
    intro hm
    exact absurd (hwpf '.' hm) (by decide)
  have hcolon : (':' : Char) ∉ init_cap_words (clean_full_address s) := by
    intro hm
    exact absurd (hwpf ':' hm) (by decide)
  have e1 : remove_accent (init_cap_words (clean_full_address s)) =
      init_cap_words (clean_full_address s) := remove_accent_id_of_safe _ hwsafe
  have e2 : clean_abbrev_address (init_cap_words (clean_full_address s)) DICT_NORM_ABBREV =
      init_cap_words (clean_full_address s) := clean_abbrev_id _ hwcanon hdot hcolon
  have e3 : remove_spare_space (init_cap_words (clean_full_address s)) =
      init_cap_words (clean_full_address s) := remove_spare_space_id _ hwcanon
  have e6 : remove_punctuation (clean_full_address s) ADDRESS_PUNCTUATIONS =
      clean_full_address s := remove_punctuation_id _ hcanon hpf
  have e7 : add_space_separator (clean_full_address s) =
      init_cap_words (clean_full_address s) := add_space_separator_eq _ hcanon hpf
  show clean_digit_ward (clean_digit_district (add_space_separator (remove_punctuation
      (clean_dash_address (clean_digit_ward (clean_digit_district (remove_spare_space
        (clean_abbrev_address (remove_accent (init_cap_words (clean_full_address s)))
          DICT_NORM_ABBREV)))) DICT_NORM_CITY_DASH) ADDRESS_PUNCTUATIONS))) =
    clean_full_address s
  rw [e1, e2, e3, H2, H1, e6, e7, H2]

/-- Claim C5 witness: on `"Abc"` both stability hypotheses hold concretely and
the normalizer is idempotent. -/
theorem claim_C5_witness :
    clean_full_address (clean_full_address ("Abc".toList)) =
      clean_full_address ("Abc".toList) :=
  claim_C5 ("Abc".toList) (by decide) (by decide)

/-- Claim C5, counterexample to the claim as stated: normalizing `"Sai, Gon"`
gives `"Sai Gon"` (the comma is stripped only after the dash-synonym pass has
run), and normalizing again rewrites the now-exposed synonym to
`"Ho Chi Minh"` — so `clean_full_address` is not idempotent. -/
theorem claim_C5_counterexample :
    clean_full_address ("Sai, Gon".toList) = ("Sai Gon".toList) ∧
    clean_full_address (clean_full_address ("Sai, Gon".toList)) = ("Ho Chi Minh".toList) ∧
    clean_full_address (clean_full_address ("Sai, Gon".toList)) ≠
      clean_full_address ("Sai, Gon".toList) :=
  ⟨by decide, by decide, by decide⟩

end AddressPy
